import Mathlib

/-!
The package fslink: symbolic-link aware views over `fs.FS`.

A shallow embedding of the Go package `fslink` (`fslink.go`, `lstat.go`) together with the
parts of the Go standard library it calls (`fs.ValidPath`, `path.Clean`, `path.Join`,
`path.Dir`, `path.Base`, `errors.Unwrap`, `fs.Stat`).

Conventions of the embedding

* A Go `string` is a Lean `String`.  Lean strings are sequences of Unicode code points, so
  every string of the model is well-formed UTF-8; indices and lengths count code points.
  The package compares strings, tests for a literal beginning and cuts at a slash, all of
  which give the same answer on code points as on bytes.
* A Go result `(v, err)` of a fallible call is an `Except Error _`: `.error e` stands for
  `(zero value, e)`.  Calls whose value and error are both inspected or both handed on
  (`ReadDir`, `ReadFile`) keep the pair.
* A Go `error` that may be `nil` is an `Option Error`.
* The file system supplied by the host is a record of state transformers over a host state
  `σ`.  The optional interfaces a Go type assertion asks for (`ReadLinkFS`, `fs.SubFS`,
  `fs.ReadDirFile`) are `Option` fields.
* Every call that reaches the host is appended to a log kept next to the host state, so that
  "no operation of the handle is invoked" and "the file is closed" are statements about the log.
* The only unbounded loop, the directory scan of `Lstat`, is driven by a fuel argument;
  running out of fuel is the result `none`.
-/

namespace fslink

/-! ## Errors -/

/-- Go `error` values that occur in the package: the sentinels `fs.ErrInvalid`,
`fs.ErrNotExist` and `io.EOF`, `errors.New(msg)`, `fmt.Errorf(format, args..., wrapped)` with a
single `%w` operand, and `*fs.PathError`, whose `Err` field may be `nil`. -/
inductive Error where
  | ErrInvalid
  | ErrNotExist
  | EOF
  | New (msg : String)
  | Errorf (format : String) (args : List String) (wrapped : Error)
  | PathError (Op : String) (Path : String) (Err : Option Error)

/-- Go `errors.Unwrap`: the result of the error's `Unwrap` method, `nil` when it has none. -/
def Unwrap : Error → Option Error
  | .PathError _ _ err => err
  | .Errorf _ _ wrapped => some wrapped
  | _ => none

/-! ## Paths (Go `io/fs` and `path`) -/

/-- Go `utf8.ValidString`.  Strings of the model are sequences of code points, all of which
are well-formed. -/
def utf8ValidString (_s : String) : Bool := true

/-- The element loop of `fs.ValidPath`: `elem` is `name[:i]` for the first index `i` holding a
slash (or `len(name)`), and the loop goes on with `name[i+1:]`. -/
def validPathLoop : Nat → List Char → Bool
  | 0, _ => false
  | fuel + 1, name =>
    let elem := name.takeWhile (fun c => c != '/')
    if elem = [] ∨ elem = ['.'] ∨ elem = ['.', '.'] then false
    else if elem.length = name.length then true
    else validPathLoop fuel (name.drop (elem.length + 1))

/-- Go `fs.ValidPath`. -/
def ValidPath (name : String) : Bool :=
  if !utf8ValidString name then false
  else if name = "." then true
  else validPathLoop (name.length + 1) name.data

/-- The backtracking step of `path.Clean` on the written part of the buffer, given last byte
first: `out.w--` followed by `for out.w > dotdot && out.index(out.w) != '/' { out.w-- }`. -/
def backtrackRev (dotdot : Nat) : List Char → List Char
  | [] => []
  | c :: r => if r.length > dotdot ∧ c ≠ '/' then backtrackRev dotdot r else r

/-- The backtracking step of `path.Clean` on the written part of the buffer. -/
def backtrack (dotdot : Nat) (out : List Char) : List Char :=
  (backtrackRev dotdot out.reverse).reverse

/-- The main loop of `path.Clean`: `rest` is `path[r:]`, `out` is the written part of the
buffer (`out.w` is its length). -/
def cleanLoop (rooted : Bool) : Nat → List Char → List Char → Nat → List Char
  | 0, _, out, _ => out
  | _ + 1, [], out, _ => out
  | fuel + 1, c :: t, out, dotdot =>
    if c = '/' then
      cleanLoop rooted fuel t out dotdot
    else if c = '.' ∧ (t = [] ∨ t.head? = some '/') then
      cleanLoop rooted fuel t out dotdot
    else if c = '.' ∧ t.head? = some '.' ∧ (t.tail = [] ∨ t.tail.head? = some '/') then
      if out.length > dotdot then
        cleanLoop rooted fuel t.tail (backtrack dotdot out) dotdot
      else if rooted = false then
        let out1 := (if out.length > 0 then out ++ ['/'] else out) ++ ['.', '.']
        cleanLoop rooted fuel t.tail out1 out1.length
      else
        cleanLoop rooted fuel t.tail out dotdot
    else
      let out1 :=
        if (rooted = true ∧ out.length ≠ 1) ∨ (rooted = false ∧ out.length ≠ 0)
        then out ++ ['/'] else out
      cleanLoop rooted fuel ((c :: t).dropWhile (fun x => x != '/'))
        (out1 ++ (c :: t).takeWhile (fun x => x != '/')) dotdot

/-- Go `path.Clean`. -/
def Clean (path : String) : String :=
  if path = "" then "."
  else
    let rooted : Bool := path.data.head? = some '/'
    let out :=
      if rooted then cleanLoop true path.length path.data.tail ['/'] 1
      else cleanLoop false path.length path.data [] 0
    if out.length = 0 then "." else String.mk out

/-- The buffer loop of `path.Join`: elements are appended, separated by slashes, empty elements
being skipped while the buffer is empty. -/
def joinBuf : List Char → List String → List Char
  | buf, [] => buf
  | buf, e :: rest =>
    if buf.length > 0 ∨ e ≠ "" then
      joinBuf ((if buf.length > 0 then buf ++ ['/'] else buf) ++ e.data) rest
    else joinBuf buf rest

/-- Go `path.Join`. -/
def Join (elem : List String) : String :=
  if (elem.map String.length).sum = 0 then ""
  else Clean (String.mk (joinBuf [] elem))

/-- Go `bytealg.LastIndexByteString`: the index of the last occurrence of `c`, or `-1`. -/
def LastIndexByteString : List Char → Char → Int
  | [], _ => -1
  | x :: t, c =>
    let r := LastIndexByteString t c
    if 0 ≤ r then r + 1 else if x = c then 0 else -1

/-- Go `path.Split`. -/
def Split (path : String) : String × String :=
  let i := LastIndexByteString path.data '/'
  (String.mk (path.data.take (i + 1).toNat), String.mk (path.data.drop (i + 1).toNat))

/-- Go `path.Dir`. -/
def Dir (path : String) : String := Clean (Split path).1

/-- The first loop of `path.Base` on the path given last byte first: trailing slashes are
stripped. -/
def stripSlashesRev : List Char → List Char
  | [] => []
  | c :: r => if c = '/' then stripSlashesRev r else c :: r

/-- Go `path.Base`. -/
def Base (path : String) : String :=
  if path = "" then "."
  else
    let p := (stripSlashesRev path.data.reverse).reverse
    let i := LastIndexByteString p '/'
    let q := if 0 ≤ i then p.drop (i + 1).toNat else p
    if q = [] then "/" else String.mk q

/-- Go `strings.HasPrefix`: `len(s) >= len(p) && s[:len(p)] == p`. -/
def HasPrefix (s p : String) : Bool :=
  decide (s.length ≥ p.length ∧ String.mk (s.data.take p.length) = p)

/-! ## Data model (Go `io/fs`) -/

/-- Go `fs.FileInfo`; `Mode` holds the `fs.FileMode` bits. -/
structure FileInfo where
  Name : String
  Size : Int
  Mode : Nat
  ModTime : Int
  IsDir : Bool
deriving DecidableEq

/-- Go `fs.ModeSymlink`, bit 27 of a `fs.FileMode`. -/
def ModeSymlink : Nat := 2 ^ 27

/-- Go `fs.DirEntry`: the results of its methods `Name`, `IsDir`, `Type` and `Info`. -/
structure DirEntry where
  Name : String
  IsDir : Bool
  Typ : Nat
  Info : Except Error FileInfo

/-- A call that reaches the host: a method of the file system or of a file it opened. -/
inductive Call where
  | Open (name : String)
  | Stat (name : String)
  | ReadDir (name : String)
  | ReadFile (name : String)
  | ReadLink (name : String)
  | Sub (dir : String)
  | FileStat
  | FileReadDir (n : Int)
  | FileClose
deriving DecidableEq

/-- The host state together with the log of the calls made to the host so far. -/
structure World (σ : Type) where
  state : σ
  log : List Call

/-- Run a host operation and record the call. -/
def World.call {σ α : Type} (w : World σ) (c : Call) (op : σ → α × σ) : α × World σ :=
  ((op w.state).1, World.mk (op w.state).2 (w.log ++ [c]))

/-- Go `fs.File` as opened by the host: `Stat` and `Close`, and `ReadDir` when the file is an
`fs.ReadDirFile`.  (`Read` is not called by the package.) -/
structure File (σ : Type) where
  Stat : σ → Except Error FileInfo × σ
  Close : σ → Option Error × σ
  ReadDir : Option (Int → σ → (List DirEntry × Option Error) × σ)

/-- A file system implemented by the host; `R` is the type of the file systems its native `Sub`
returns.  `typeName` is what `%T` prints.  `Open` is its `fs.FS` method.  `Stat`, `ReadDir` and
`ReadFile` are the host's `fs.Stat(h, _)`, `fs.ReadDir(h, _)` and `fs.ReadFile(h, _)`.
`ReadLink` is present when the type implements `ReadLinkFS`, `Sub` when it implements
`fs.SubFS`. -/
structure HostFS (σ : Type) (R : Type) where
  typeName : String
  Open : String → σ → Except Error (File σ) × σ
  Stat : String → σ → Except Error FileInfo × σ
  ReadDir : String → σ → (List DirEntry × Option Error) × σ
  ReadFile : String → σ → (List (Fin 256) × Option Error) × σ
  ReadLink : Option (String → σ → Except Error String × σ)
  Sub : Option (String → σ → Except Error R × σ)

/-- Go `fs.FS` values: a file system of the host, or a `*subFS` of this package, which holds
the wrapped file system `fsys` and the directory `dir`. -/
inductive FS (σ : Type) where
  | host (h : HostFS σ (FS σ))
  | view (fsys : FS σ) (dir : String)

/-! ## `fslink.go` -/

/-- Go `(*subFS).fullName`, for a view with directory `dir`. -/
def subFS.fullName (dir : String) (op : String) (name : String) : Except Error String :=
  if !ValidPath name then .error (.PathError op name (some (.New "invalid name")))
  else .ok (Join [dir, name])

/-- Go `(*subFS).shorten`, for a view with directory `dir`. -/
def subFS.shorten (dir : String) (name : String) : String × Bool :=
  if name = dir then (".", true)
  else if name.length ≥ dir.length + 2 ∧ name.data.get? dir.length = some '/' ∧
      String.mk (name.data.take dir.length) = dir then
    (String.mk (name.data.drop (dir.length + 1)), true)
  else ("", false)

/-- Go `(*subFS).fixErr` on a non-nil error, for a view with directory `dir`. -/
def subFS.fixErr (dir : String) : Error → Error
  | .PathError op path err =>
    if (subFS.shorten dir path).2 then .PathError op (subFS.shorten dir path).1 err
    else .PathError op path err
  | err => err

/-- Go `(*subFS).Open`; `fsysOpen` is the method `f.fsys.Open`. -/
def subFS.Open {σ : Type} (fsysOpen : String → World σ → Except Error (File σ) × World σ)
    (dir : String) (name : String) (w : World σ) : Except Error (File σ) × World σ :=
  match subFS.fullName dir "open" name with
  | .error err => (.error err, w)
  | .ok full =>
    match fsysOpen full w with
    | (.ok file, w1) => (.ok file, w1)
    | (.error err, w1) => (.error (subFS.fixErr dir err), w1)

/-- Go `(*subFS).ReadDir`; `fsReadDir` is `fs.ReadDir(f.fsys, _)`. -/
def subFS.ReadDir {σ : Type}
    (fsReadDir : String → World σ → (List DirEntry × Option Error) × World σ)
    (dir : String) (name : String) (w : World σ) : (List DirEntry × Option Error) × World σ :=
  match subFS.fullName dir "read" name with
  | .error err => (([], some err), w)
  | .ok full =>
    (((fsReadDir full w).1.1, (fsReadDir full w).1.2.map (subFS.fixErr dir)), (fsReadDir full w).2)

/-- Go `(*subFS).ReadFile`; `fsReadFile` is `fs.ReadFile(f.fsys, _)`. -/
def subFS.ReadFile {σ : Type}
    (fsReadFile : String → World σ → (List (Fin 256) × Option Error) × World σ)
    (dir : String) (name : String) (w : World σ) : (List (Fin 256) × Option Error) × World σ :=
  match subFS.fullName dir "read" name with
  | .error err => (([], some err), w)
  | .ok full =>
    (((fsReadFile full w).1.1, (fsReadFile full w).1.2.map (subFS.fixErr dir)),
      (fsReadFile full w).2)

/-- The method call `fsys.Open(name)` on an `fs.FS`. -/
def FS.Open {σ : Type} : FS σ → String → World σ → Except Error (File σ) × World σ
  | .host h => fun name w => w.call (.Open name) (h.Open name)
  | .view fsys dir => subFS.Open (FS.Open fsys) dir

/-- Go `fs.ReadDir(fsys, name)`: the host's for a host file system, and the method
`(*subFS).ReadDir` for a view, which implements `fs.ReadDirFS`. -/
def fsReadDir {σ : Type} : FS σ → String → World σ → (List DirEntry × Option Error) × World σ
  | .host h => fun name w => w.call (.ReadDir name) (h.ReadDir name)
  | .view fsys dir => subFS.ReadDir (fsReadDir fsys) dir

/-- Go `fs.ReadFile(fsys, name)`: the host's for a host file system, and the method
`(*subFS).ReadFile` for a view, which implements `fs.ReadFileFS`. -/
def fsReadFile {σ : Type} :
    FS σ → String → World σ → (List (Fin 256) × Option Error) × World σ
  | .host h => fun name w => w.call (.ReadFile name) (h.ReadFile name)
  | .view fsys dir => subFS.ReadFile (fsReadFile fsys) dir

/-- Go `fs.Stat(fsys, name)`: the host's for a host file system; a view does not implement
`fs.StatFS`, so the file is opened, asked for its `Stat` and closed. -/
def fsStat {σ : Type} (fsys : FS σ) (name : String) (w : World σ) :
    Except Error FileInfo × World σ :=
  match fsys with
  | .host h => w.call (.Stat name) (h.Stat name)
  | .view _ _ =>
    match FS.Open fsys name w with
    | (.error err, w1) => (.error err, w1)
    | (.ok file, w1) =>
      ((w1.call .FileStat file.Stat).1,
        ((w1.call .FileStat file.Stat).2.call .FileClose file.Close).2)

/-- The tail of Go `ReadLink`, from `if err != nil` on: `r` is the result of `f.ReadLink(name)`. -/
def ReadLink.validate {σ : Type} (name : String) :
    Except Error String × World σ → Except Error String × World σ
  | (.error err, w) => (.error err, w)
  | (.ok link, w) =>
    if link = ".." then (.ok link, w)
    else if HasPrefix link "../" then (.ok link, w)
    else if ValidPath link then (.ok link, w)
    else
      (.error (.PathError "readlink" name
        (some (.Errorf "malformed link target: %q (%w)" [link] .ErrInvalid))), w)

/-- Go `(*subFS).ReadLink`; `fsysReadLink` is `ReadLink(f.fsys, _)`. -/
def subFS.ReadLink {σ : Type} (fsysReadLink : String → World σ → Except Error String × World σ)
    (dir : String) (name : String) (w : World σ) : Except Error String × World σ :=
  match subFS.fullName dir "readlink" name with
  | .error err => (.error err, w)
  | .ok full => fsysReadLink full w

/-- The text `%T` prints for an `fs.FS`. -/
def FS.typeName {σ : Type} : FS σ → String
  | .host h => h.typeName
  | .view _ _ => "*fslink.subFS"

/-- The error of Go `ReadLink` for a file system that is not a `ReadLinkFS`. -/
def ReadLink.unsupported (typeName : String) (name : String) : Error :=
  .PathError "readlink" name
    (some (.Errorf "symlink found in file system which does not implement fs.ReadLinkFS: %T (%w)"
      [typeName] .ErrInvalid))

/-- Go `ReadLink`.  The assertion `fsys.(ReadLinkFS)` holds for a host file system with a
`ReadLink` method and for every view. -/
def ReadLink {σ : Type} : FS σ → String → World σ → Except Error String × World σ
  | .host h => fun name w =>
    match h.ReadLink with
    | none => (.error (ReadLink.unsupported h.typeName name), w)
    | some f => ReadLink.validate name (w.call (.ReadLink name) (f name))
  | .view fsys dir => fun name w =>
    ReadLink.validate name (subFS.ReadLink (ReadLink fsys) dir name w)

/-- Go `(*subFS).Sub`, for the view of `fsys` at `dir0`. -/
def subFS.Sub {σ : Type} (fsys : FS σ) (dir0 : String) (dir : String) : Except Error (FS σ) :=
  if dir = "." then .ok (.view fsys dir0)
  else
    match subFS.fullName dir0 "sub" dir with
    | .error err => .error err
    | .ok full => .ok (.view fsys full)

/-- Go `Sub`.  The assertion `fsys.(fs.SubFS)` holds for a host file system with a `Sub`
method and for every view. -/
def Sub {σ : Type} (fsys : FS σ) (dir : String) (w : World σ) : Except Error (FS σ) × World σ :=
  if !ValidPath dir then (.error (.PathError "sub" dir (some (.New "invalid name"))), w)
  else if dir = "." then (.ok fsys, w)
  else
    match fsys with
    | .host h =>
      match h.Sub with
      | some sub => w.call (.Sub dir) (sub dir)
      | none => (.ok (.view fsys dir), w)
    | .view inner dir0 => (subFS.Sub inner dir0 dir, w)

/-- Whether `fsys.(ReadLinkFS)` holds. -/
def FS.implementsReadLinkFS {σ : Type} : FS σ → Bool
  | .host h => h.ReadLink.isSome
  | .view _ _ => true

/-! ## `lstat.go` -/

/-- Whether `err == io.EOF`. -/
def Error.isEOF : Error → Bool
  | .EOF => true
  | _ => false

/-- The `for` loop of Go `Lstat` over the `fs.ReadDirFile` method `ReadDir`, with `name`
already replaced by `path.Base(name)`. -/
def Lstat.scan {σ : Type} (ReadDir : Int → σ → (List DirEntry × Option Error) × σ)
    (name : String) : Nat → World σ → Option (Except Error FileInfo × World σ)
  | 0, _ => none
  | fuel + 1, w =>
    match (w.call (.FileReadDir 100) (ReadDir 100)).1.1.find? (fun entry => entry.Name = name) with
    | some entry => some (entry.Info, (w.call (.FileReadDir 100) (ReadDir 100)).2)
    | none =>
      match (w.call (.FileReadDir 100) (ReadDir 100)).1.2 with
      | some err =>
        if err.isEOF then
          some (.error (.PathError "lstat" name (some .ErrNotExist)),
            (w.call (.FileReadDir 100) (ReadDir 100)).2)
        else
          some (.error (.PathError "lstat" name (Unwrap err)),
            (w.call (.FileReadDir 100) (ReadDir 100)).2)
      | none => Lstat.scan ReadDir name fuel (w.call (.FileReadDir 100) (ReadDir 100)).2

/-- The part of Go `Lstat` after `defer f.Close()`, for the opened file `f`. -/
def Lstat.body {σ : Type} (f : File σ) (name : String) (fuel : Nat) (w : World σ) :
    Option (Except Error FileInfo × World σ) :=
  match f.ReadDir with
  | none => some (.error (.PathError "lstat" name (some .ErrInvalid)), w)
  | some d => Lstat.scan d (Base name) fuel w

/-- Go `Lstat`.  The deferred `f.Close()` runs after the result is computed; its error is
dropped. -/
def Lstat {σ : Type} (fuel : Nat) (fsys : FS σ) (name : String) (w : World σ) :
    Option (Except Error FileInfo × World σ) :=
  if !ValidPath name then some (.error (.PathError "lstat" name (some .ErrNotExist)), w)
  else if name = "." then some (fsStat fsys name w)
  else
    match FS.Open fsys (Dir name) w with
    | (.error err, w1) => some (.error err, w1)
    | (.ok f, w1) =>
      (Lstat.body f name fuel w1).map (fun r => (r.1, (r.2.call .FileClose f.Close).2))

/-! ## Vocabulary of the statements -/

/-- A path element `fs.ValidPath` accepts: not empty, not `.`, not `..`, without a slash. -/
def GoodElem (e : List Char) : Prop :=
  e ≠ [] ∧ e ≠ ['.'] ∧ e ≠ ['.', '.'] ∧ ∀ c ∈ e, c ≠ '/'

/-- The elements joined by single slashes. -/
def joinElems : List (List Char) → List Char
  | [] => []
  | [e] => e
  | e :: e2 :: es => e ++ '/' :: joinElems (e2 :: es)

/-- The shape of a path `fs.ValidPath` accepts, other than `.`: one or more good elements
separated by single slashes. -/
def ValidElems (name : List Char) : Prop :=
  ∃ es : List (List Char), es ≠ [] ∧ (∀ e ∈ es, GoodElem e) ∧ name = joinElems es

/-- The loop of `path.Clean` on an unrooted path with as much fuel as the input is long. -/
def cleanRel (rest out : List Char) : List Char := cleanLoop false rest.length rest out 0

/-- The `ReadDir` method `d` of an opened directory, asked for batches of 100 entries from the
host state `s` on, answers with the batches `bs` one after the other and leaves the host in
state `s2`. -/
def Serves {σ : Type} (d : Int → σ → (List DirEntry × Option Error) × σ) :
    σ → List (List DirEntry × Option Error) → σ → Prop
  | s, [], s2 => s = s2
  | s, b :: bs, s2 => (d 100 s).1 = b ∧ Serves d (d 100 s).2 bs s2

/-- The method `ReadLink` that the assertion `fsys.(ReadLinkFS)` yields when it holds: the
host's method, or `(*subFS).ReadLink`. -/
def FS.readLinkMethod {σ : Type} :
    FS σ → Option (String → World σ → Except Error String × World σ)
  | .host h => h.ReadLink.map (fun f name w => w.call (.ReadLink name) (f name))
  | .view fsys dir => some (subFS.ReadLink (ReadLink fsys) dir)

/-- The link-target grammar: `..`, or a text that begins with `../`, or a valid path. -/
def validLinkTarget (t : String) : Bool :=
  t = ".." || HasPrefix t "../" || ValidPath t

/-- The error of Go `ReadLink` for a link target outside the grammar. -/
def ReadLink.malformed (name : String) (link : String) : Error :=
  .PathError "readlink" name (some (.Errorf "malformed link target: %q (%w)" [link] .ErrInvalid))

/-! ## Example hosts -/

/-- The `fs.FileInfo` of a directory named `name`. -/
def dirInfo (name : String) : FileInfo :=
  { Name := name, Size := 0, Mode := 2 ^ 31 + 365, ModTime := 0, IsDir := true }

/-- A directory entry that carries its own `fs.FileInfo`, as the entries of `fstest.MapFS`
do. -/
def infoEntry (name : String) (mode : Nat) : DirEntry :=
  { Name := name, IsDir := false, Typ := mode / 2 ^ 27 % 2 * 2 ^ 27,
    Info := .ok { Name := name, Size := 0, Mode := mode, ModTime := 0, IsDir := false } }

/-- An open directory over a fixed list of entries, in the manner of `fstest.MapFS`: the host
state is the read offset, and `ReadDir(n)` hands out the next `n` entries, or `io.EOF` when
none is left. -/
def listDir (entries : List DirEntry) : File Nat where
  Stat := fun s => (.ok (dirInfo "."), s)
  Close := fun s => (none, s)
  ReadDir := some (fun n s =>
    if (entries.drop s).length = 0 ∧ n > 0 then (([], some .EOF), s)
    else if n > 0 ∧ (entries.drop s).length > n.toNat then
      (((entries.drop s).take n.toNat, none), s + n.toNat)
    else ((entries.drop s, none), s + (entries.drop s).length))

/-- An open directory whose `ReadDir` fails with `err` at once. -/
def brokenDir (err : Error) : File Nat where
  Stat := fun s => (.ok (dirInfo "."), s)
  Close := fun s => (none, s)
  ReadDir := some (fun _ s => (([], some err), s))

/-- A host file system with the single directory `.`, opened as `root`, which implements
neither `ReadLinkFS` nor `fs.SubFS`. -/
def plainFS (root : File Nat) (entries : List DirEntry) : HostFS Nat (FS Nat) where
  typeName := "example.plainFS"
  Open := fun name s =>
    if name = "." then (.ok root, 0) else (.error (.PathError "open" name (some .ErrNotExist)), s)
  Stat := fun name s =>
    if name = "." then (.ok (dirInfo "."), s)
    else (.error (.PathError "stat" name (some .ErrNotExist)), s)
  ReadDir := fun name s =>
    if name = "." then ((entries, none), s)
    else (([], some (.PathError "open" name (some .ErrNotExist))), s)
  ReadFile := fun name s => (([], some (.PathError "open" name (some .ErrNotExist))), s)
  ReadLink := none
  Sub := none

/-- A host file system that implements `ReadLinkFS`: every name is a link with text `t`. -/
def linkFS (t : String) : HostFS Nat (FS Nat) where
  typeName := "example.linkFS"
  Open := fun name s => (.error (.PathError "open" name (some .ErrNotExist)), s)
  Stat := fun name s => (.error (.PathError "stat" name (some .ErrNotExist)), s)
  ReadDir := fun name s => (([], some (.PathError "open" name (some .ErrNotExist))), s)
  ReadFile := fun name s => (([], some (.PathError "open" name (some .ErrNotExist))), s)
  ReadLink := some (fun _ s => (.ok t, s + 1))
  Sub := none

/-- A host file system that implements `fs.SubFS` the way `fstest.MapFS` does: its `Sub`
returns a file system of the host that has no `ReadLink` method. -/
def nativeSubFS : HostFS Nat (FS Nat) where
  typeName := "example.nativeSubFS"
  Open := fun name s => (.error (.PathError "open" name (some .ErrNotExist)), s)
  Stat := fun name s => (.error (.PathError "stat" name (some .ErrNotExist)), s)
  ReadDir := fun name s => (([], some (.PathError "open" name (some .ErrNotExist))), s)
  ReadFile := fun name s => (([], some (.PathError "open" name (some .ErrNotExist))), s)
  ReadLink := none
  Sub := some (fun _ s => (.ok (.host (plainFS (listDir []) [])), s))

/-- The file system of `TestLstat`: a file and a symbolic link to it. -/
def testFS : HostFS Nat (FS Nat) :=
  plainFS (listDir [infoEntry "file" 384, infoEntry "link" (438 + ModeSymlink)])
    [infoEntry "file" 384, infoEntry "link" (438 + ModeSymlink)]

/-- A directory entry whose file was removed after the directory was read: its `Info` fails
with an error that wraps `fs.ErrNotExist`, as the documentation of `fs.DirEntry` provides. -/
def goneEntry (name : String) : DirEntry :=
  { Name := name, IsDir := false, Typ := 0,
    Info := .error (.PathError "lstat" name (some .ErrNotExist)) }

/-- A directory of 250 entries whose last entry is named `t`. -/
def dir250 : List DirEntry :=
  List.replicate 249 (infoEntry "f" 384) ++ [infoEntry "t" 420]

/-- The rewriting of a reported path by a view with base directory `d`, in words: a path equal
to `d` becomes `.`; a path made of `d`, a slash and a non-empty suffix becomes that suffix;
every other path stays as it is. -/
def Rewritten (d path path2 : String) : Prop :=
  (path = d → path2 = ".") ∧
    (∀ suf : String, suf ≠ "" → path = d ++ "/" ++ suf → path2 = suf) ∧
    (path ≠ d → (∀ suf : String, suf ≠ "" → path ≠ d ++ "/" ++ suf) → path2 = path)

/-- The segments of a text: the pieces between its slashes. -/
def segments : List Char → List (List Char)
  | [] => [[]]
  | c :: t =>
    if c = '/' then [] :: segments t
    else
      match segments t with
      | [] => [[c]]
      | s :: ss => (c :: s) :: ss

/-- The text has a segment `.` or `..`. -/
def hasDotSegment (t : String) : Prop :=
  ['.'] ∈ segments t.data ∨ ['.', '.'] ∈ segments t.data

/-- The file systems reachable from the host file system `h` by `Sub` and `(*subFS).Sub`. -/
inductive Reachable {σ : Type} (h : HostFS σ (FS σ)) : FS σ → Prop where
  | sub (d : String) (w w1 : World σ) (v : FS σ) :
      Sub (.host h) d w = (.ok v, w1) → Reachable h v
  | step (d : String) (w w1 : World σ) (v v2 : FS σ) :
      Reachable h v → Sub v d w = (.ok v2, w1) → Reachable h v2
  | method (fsys : FS σ) (dir d : String) (v2 : FS σ) :
      Reachable h (.view fsys dir) → subFS.Sub fsys dir d = .ok v2 → Reachable h v2

/-- A host file system whose `Open`, `ReadDir` and `ReadFile` always fail with a path error
that reports `path`, and whose `ReadLink` fails with a path error that reports the name it was
given. -/
def failFS (path : String) : HostFS Nat (FS Nat) where
  typeName := "example.failFS"
  Open := fun _ s => (.error (.PathError "open" path (some .ErrNotExist)), s)
  Stat := fun _ s => (.error (.PathError "stat" path (some .ErrNotExist)), s)
  ReadDir := fun _ s => (([], some (.PathError "readdir" path (some .ErrNotExist))), s)
  ReadFile := fun _ s => (([], some (.PathError "readfile" path (some .ErrNotExist))), s)
  ReadLink := some (fun name s => (.error (.PathError "readlink" name (some .ErrNotExist)), s))
  Sub := none

/-- A host file system in which only the directory `dir` opens, as `root`, and which implements
neither `ReadLinkFS` nor `fs.SubFS`. -/
def oneDirFS (dir : String) (root : File Nat) : HostFS Nat (FS Nat) where
  typeName := "example.oneDirFS"
  Open := fun name s =>
    if name = dir then (.ok root, 0)
    else (.error (.PathError "open" name (some .ErrNotExist)), s)
  Stat := fun name s => (.error (.PathError "stat" name (some .ErrNotExist)), s)
  ReadDir := fun name s => (([], some (.PathError "open" name (some .ErrNotExist))), s)
  ReadFile := fun name s => (([], some (.PathError "open" name (some .ErrNotExist))), s)
  ReadLink := none
  Sub := none

/-! ## Path lemmas -/

theorem joinElems_cons (e : List Char) (es : List (List Char)) (h : es ≠ []) :
    joinElems (e :: es) = e ++ '/' :: joinElems es := by
  cases es with
  | nil => exact absurd rfl h
  | cons e2 es => rfl

theorem joinElems_append (es fs : List (List Char)) (h1 : es ≠ []) (h2 : fs ≠ []) :
    joinElems (es ++ fs) = joinElems es ++ '/' :: joinElems fs := by
  induction es with
  | nil => exact absurd rfl h1
  | cons e es ih =>
    cases es with
    | nil => simp [joinElems_cons _ _ h2, joinElems]
    | cons e2 es =>
      have h3 : e2 :: es ++ fs ≠ [] := by simp
      have h4 : e2 :: es ≠ [] := by simp
      rw [List.cons_append, joinElems_cons e _ h3, ih h4, joinElems_cons e _ h4]
      simp

theorem takeWhile_length_eq {α : Type} (p : α → Bool) (l : List α)
    (h : (l.takeWhile p).length = l.length) : l.takeWhile p = l := by
  have h1 := List.takeWhile_append_dropWhile p l
  have h2 : (l.dropWhile p).length = 0 := by
    have := congrArg List.length h1
    simp only [List.length_append] at this
    omega
  have h3 : l.dropWhile p = [] := List.length_eq_zero.mp h2
  rw [h3, List.append_nil] at h1
  exact h1

theorem drop_takeWhile_length {α : Type} (p : α → Bool) (l : List α) :
    l.drop (l.takeWhile p).length = l.dropWhile p := by
  induction l with
  | nil => rfl
  | cons a l ih =>
    by_cases h : p a = true
    · simp [List.takeWhile_cons, List.dropWhile_cons, h, ih]
    · simp [List.takeWhile_cons, List.dropWhile_cons, h]

theorem dropWhile_slash (l : List Char) :
    l.dropWhile (fun c => c != '/') = [] ∨
      ∃ r, l.dropWhile (fun c => c != '/') = '/' :: r := by
  induction l with
  | nil => left; rfl
  | cons a l ih =>
    by_cases h : a = '/'
    · right; exact ⟨l, by simp [List.dropWhile_cons, h]⟩
    · simpa [List.dropWhile_cons, h] using ih

theorem takeWhile_no_slash (l : List Char) : ∀ c ∈ l.takeWhile (fun c => c != '/'), c ≠ '/' := by
  intro c hc
  have := List.mem_takeWhile_imp hc
  simpa using this

theorem takeWhile_append_slash (e suffix : List Char) (he : ∀ c ∈ e, c ≠ '/')
    (hs : suffix = [] ∨ ∃ r, suffix = '/' :: r) :
    (e ++ suffix).takeWhile (fun c => c != '/') = e ∧
      (e ++ suffix).dropWhile (fun c => c != '/') = suffix := by
  induction e with
  | nil =>
    rcases hs with hs | ⟨r, hs⟩ <;> subst hs <;> simp [List.takeWhile_cons, List.dropWhile_cons]
  | cons a e ih =>
    have ha : a ≠ '/' := he a (List.mem_cons_self _ _)
    have := ih (fun c hc => he c (List.mem_cons_of_mem _ hc))
    simp [List.takeWhile_cons, List.dropWhile_cons, ha, this]

theorem validPathLoop_sound (fuel : Nat) (name : List Char)
    (h : validPathLoop fuel name = true) : ValidElems name := by
  induction fuel generalizing name with
  | zero => simp [validPathLoop] at h
  | succ fuel ih =>
    unfold validPathLoop at h
    simp only at h
    split at h
    · exact absurd h (by simp)
    · rename_i hbad
      have hgood : GoodElem (name.takeWhile (fun c => c != '/')) := by
        refine ⟨?_, ?_, ?_, takeWhile_no_slash name⟩
        · intro h0; exact hbad (Or.inl h0)
        · intro h0; exact hbad (Or.inr (Or.inl h0))
        · intro h0; exact hbad (Or.inr (Or.inr h0))
      split at h
      · rename_i hlen
        refine ⟨[name], by simp, ?_, by simp [joinElems]⟩
        intro e he
        simp only [List.mem_singleton] at he
        rw [he, ← takeWhile_length_eq _ _ hlen]
        exact hgood
      · rename_i hlen
        obtain ⟨es, hes, hall, hrest⟩ := ih _ h
        have hsplit := List.takeWhile_append_dropWhile (fun c => c != '/') name
        have hdrop : name.dropWhile (fun c => c != '/') =
            '/' :: name.drop ((name.takeWhile (fun c => c != '/')).length + 1) := by
          rcases dropWhile_slash name with h0 | ⟨r, h0⟩
          · rw [h0, List.append_nil] at hsplit
            exact absurd (congrArg List.length hsplit) hlen
          · rw [h0]
            have := drop_takeWhile_length (fun c => c != '/') name
            rw [← List.drop_drop, this, h0]
            rfl
        refine ⟨name.takeWhile (fun c => c != '/') :: es, by simp, ?_, ?_⟩
        · intro e he
          rcases List.mem_cons.mp he with he | he
          · rw [he]; exact hgood
          · exact hall e he
        · rw [joinElems_cons _ _ hes, ← hrest, ← hdrop, hsplit]

theorem validPathLoop_complete (es : List (List Char)) (hes : es ≠ [])
    (hall : ∀ e ∈ es, GoodElem e) (fuel : Nat) (hfuel : es.length ≤ fuel) :
    validPathLoop fuel (joinElems es) = true := by
  induction es generalizing fuel with
  | nil => exact absurd rfl hes
  | cons e es ih =>
    obtain ⟨h1, h2, h3, h4⟩ := hall e (List.mem_cons_self _ _)
    cases fuel with
    | zero => simp at hfuel
    | succ fuel =>
      cases es with
      | nil =>
        have ht := (takeWhile_append_slash e [] h4 (Or.inl rfl)).1
        rw [List.append_nil] at ht
        unfold validPathLoop
        simp only [joinElems, ht]
        simp [h1, h2, h3]
      | cons e2 es =>
        have hne : e2 :: es ≠ [] := by simp
        have ht := (takeWhile_append_slash e ('/' :: joinElems (e2 :: es)) h4
          (Or.inr ⟨_, rfl⟩)).1
        have hrec := ih hne (fun x hx => hall x (List.mem_cons_of_mem _ hx)) fuel
          (by simp at hfuel ⊢; omega)
        unfold validPathLoop
        simp only [joinElems_cons e _ hne, ht]
        have hdrop : (e ++ '/' :: joinElems (e2 :: es)).drop (e.length + 1) =
            joinElems (e2 :: es) := by
          rw [← List.drop_drop, List.drop_left]
          rfl
        rw [hdrop, hrec]
        simp [h1, h2, h3]

theorem joinElems_length (es : List (List Char)) (hall : ∀ e ∈ es, GoodElem e) :
    es.length ≤ (joinElems es).length := by
  induction es with
  | nil => simp
  | cons e es ih =>
    have h1 : e ≠ [] := (hall e (List.mem_cons_self _ _)).1
    have h2 : 1 ≤ e.length := List.length_pos.mpr h1
    cases es with
    | nil => simpa [joinElems] using h2
    | cons e2 es =>
      have := ih (fun x hx => hall x (List.mem_cons_of_mem _ hx))
      rw [joinElems_cons e _ (by simp)]
      simp only [List.length_append, List.length_cons] at this ⊢
      omega

theorem ValidPath_iff (name : String) :
    ValidPath name = true ↔ name = "." ∨ ValidElems name.data := by
  unfold ValidPath utf8ValidString
  by_cases hdot : name = "."
  · simp [hdot]
  · simp only [Bool.not_true, Bool.false_eq_true, if_false, hdot, false_or]
    constructor
    · exact validPathLoop_sound _ _
    · rintro ⟨es, hes, hall, hname⟩
      rw [hname]
      apply validPathLoop_complete es hes hall
      have := joinElems_length es hall
      rw [← hname] at this
      simp only [String.length]
      omega

theorem cleanLoop_fuel (rooted : Bool) (n : Nat) :
    ∀ (rest : List Char), rest.length ≤ n → ∀ (fuel1 fuel2 : Nat) (out : List Char) (dd : Nat),
      rest.length ≤ fuel1 → rest.length ≤ fuel2 →
      cleanLoop rooted fuel1 rest out dd = cleanLoop rooted fuel2 rest out dd := by
  induction n with
  | zero =>
    intro rest hn fuel1 fuel2 out dd _ _
    have : rest = [] := List.length_eq_zero.mp (Nat.le_zero.mp hn)
    subst this
    cases fuel1 <;> cases fuel2 <;> simp [cleanLoop]
  | succ n ih =>
    intro rest hn fuel1 fuel2 out dd h1 h2
    cases rest with
    | nil => cases fuel1 <;> cases fuel2 <;> simp [cleanLoop]
    | cons c t =>
      have ht : t.length ≤ n := by simpa using hn
      have htt : t.tail.length ≤ n := by simp; omega
      cases fuel1 with
      | zero => simp at h1
      | succ f1 =>
        cases fuel2 with
        | zero => simp at h2
        | succ f2 =>
          have h1t : t.length ≤ f1 := by simpa using h1
          have h2t : t.length ≤ f2 := by simpa using h2
          have htt1 : t.tail.length ≤ f1 := le_trans (by simp) h1t
          have htt2 : t.tail.length ≤ f2 := le_trans (by simp) h2t
          have hd : c ≠ '/' → ((c :: t).dropWhile (fun x => x != '/')).length ≤ t.length := by
            intro hc
            simp only [List.dropWhile_cons, bne_iff_ne, ne_eq, hc, not_false_eq_true,
              decide_True, if_true]
            exact (List.dropWhile_sublist _).length_le
          simp only [cleanLoop]
          split_ifs with hc
          all_goals first
            | exact ih _ ht _ _ _ _ h1t h2t
            | exact ih _ htt _ _ _ _ htt1 htt2
            | exact ih _ (le_trans (hd hc) ht) _ _ _ _ (le_trans (hd hc) h1t)
                (le_trans (hd hc) h2t)

theorem cleanLoop_eq_cleanRel (fuel : Nat) (rest out : List Char) (h : rest.length ≤ fuel) :
    cleanLoop false fuel rest out 0 = cleanRel rest out :=
  cleanLoop_fuel false rest.length rest (Nat.le_refl _) _ _ _ _ h (Nat.le_refl _)

theorem cleanRel_nil (out : List Char) : cleanRel [] out = out := by
  simp [cleanRel, cleanLoop]

theorem cleanRel_slash (t out : List Char) : cleanRel ('/' :: t) out = cleanRel t out := by
  simp [cleanRel, cleanLoop]

theorem cleanRel_dot (out : List Char) : cleanRel ['.'] out = out := by
  simp [cleanRel, cleanLoop]

theorem cleanRel_elem (e suffix out : List Char) (he : GoodElem e)
    (hs : suffix = [] ∨ ∃ r, suffix = '/' :: r) :
    cleanRel (e ++ suffix) out =
      cleanRel suffix ((if out.length ≠ 0 then out ++ ['/'] else out) ++ e) := by
  obtain ⟨h1, h2, h3, h4⟩ := he
  obtain ⟨htake, hdrop⟩ := takeWhile_append_slash e suffix h4 hs
  cases e with
  | nil => exact absurd rfl h1
  | cons c t =>
    have hc : c ≠ '/' := h4 c (List.mem_cons_self _ _)
    have ht : ∀ x ∈ t, x ≠ '/' := fun x hx => h4 x (List.mem_cons_of_mem _ hx)
    have hhead : ∀ (l : List Char), (∀ x ∈ l, x ≠ '/') →
        (l ++ suffix = [] ∨ (l ++ suffix).head? = some '/') → l = [] := by
      intro l hl h
      cases l with
      | nil => rfl
      | cons a l =>
        rcases h with h | h
        · simp at h
        · simp only [List.cons_append, List.head?_cons, Option.some.injEq] at h
          exact absurd h (hl a (List.mem_cons_self _ _))
    have hcase2 : ¬ (c = '.' ∧ (t ++ suffix = [] ∨ (t ++ suffix).head? = some '/')) := by
      rintro ⟨hc1, h⟩
      have := hhead t ht h
      subst this; subst hc1
      exact h2 rfl
    have hcase3 : ¬ (c = '.' ∧ (t ++ suffix).head? = some '.' ∧
        ((t ++ suffix).tail = [] ∨ (t ++ suffix).tail.head? = some '/')) := by
      rintro ⟨hc1, hd, h⟩
      cases t with
      | nil =>
        rcases hs with hs | ⟨r, hs⟩ <;> subst hs <;> simp at hd
      | cons a t =>
        simp only [List.cons_append, List.head?_cons, Option.some.injEq] at hd
        simp only [List.cons_append, List.tail_cons] at h
        have := hhead t (fun x hx => ht x (List.mem_cons_of_mem _ hx)) h
        subst this; subst hc1; subst hd
        exact h3 rfl
    have hlen : (c :: t ++ suffix).length = (t ++ suffix).length + 1 := by simp
    unfold cleanRel
    rw [hlen]
    simp only [List.cons_append] at htake hdrop ⊢
    rw [cleanLoop]
    simp only [hc, if_false, hcase2, hcase3, htake, hdrop]
    simp only [Bool.false_eq_true, false_and, false_or, true_and]
    exact cleanLoop_fuel false _ _ (Nat.le_refl _) _ _ _ _ (by simp) (Nat.le_refl _)

theorem cleanRel_joinElems (es : List (List Char)) (hes : es ≠ [])
    (hall : ∀ e ∈ es, GoodElem e) (suffix out : List Char)
    (hs : suffix = [] ∨ ∃ r, suffix = '/' :: r) :
    cleanRel (joinElems es ++ suffix) out =
      cleanRel suffix ((if out.length ≠ 0 then out ++ ['/'] else out) ++ joinElems es) := by
  induction es generalizing out with
  | nil => exact absurd rfl hes
  | cons e es ih =>
    have he := hall e (List.mem_cons_self _ _)
    cases es with
    | nil => simpa [joinElems] using cleanRel_elem e suffix out he hs
    | cons e2 es =>
      have hne : e2 :: es ≠ [] := by simp
      rw [joinElems_cons e _ hne, List.append_assoc, List.cons_append,
        cleanRel_elem e _ out he (Or.inr ⟨_, rfl⟩), cleanRel_slash,
        ih hne (fun x hx => hall x (List.mem_cons_of_mem _ hx))]
      have hpos : ((if out.length ≠ 0 then out ++ ['/'] else out) ++ e).length ≠ 0 := by
        have := List.length_pos.mpr he.1
        simp only [List.length_append]
        omega
      simp only [hpos, if_true, ne_eq, not_false_eq_true, List.append_assoc,
        List.singleton_append]

theorem joinElems_head (es : List (List Char)) (hes : es ≠ []) (hall : ∀ e ∈ es, GoodElem e) :
    ∃ c t, joinElems es = c :: t ∧ c ≠ '/' := by
  cases es with
  | nil => exact absurd rfl hes
  | cons e es =>
    obtain ⟨h1, _, _, h4⟩ := hall e (List.mem_cons_self _ _)
    cases e with
    | nil => exact absurd rfl h1
    | cons c t =>
      have hc : c ≠ '/' := h4 c (List.mem_cons_self _ _)
      cases es with
      | nil => exact ⟨c, t, rfl, hc⟩
      | cons e2 es => exact ⟨c, _, rfl, hc⟩

theorem mk_ne_empty (l : List Char) (h : l ≠ []) : String.mk l ≠ "" := by
  intro h2
  exact h (congrArg String.data h2)

theorem Clean_of_elems (es : List (List Char)) (hes : es ≠ []) (hall : ∀ e ∈ es, GoodElem e)
    (suffix : List Char) (hs : suffix = [] ∨ suffix = ['/', '.']) :
    Clean (String.mk (joinElems es ++ suffix)) = String.mk (joinElems es) := by
  obtain ⟨c, t, hct, hc⟩ := joinElems_head es hes hall
  have hne : String.mk (joinElems es ++ suffix) ≠ "" := mk_ne_empty _ (by simp [hct])
  have hrooted : ((joinElems es ++ suffix).head? = some '/') = False := by
    simp [hct, hc]
  have hrel : cleanRel (joinElems es ++ suffix) [] = joinElems es := by
    rw [cleanRel_joinElems es hes hall suffix []
      (by rcases hs with hs | hs <;> simp [hs])]
    rcases hs with hs | hs <;> subst hs
    · simp [cleanRel_nil]
    · simp [cleanRel_slash, cleanRel_dot]
  unfold Clean
  simp only [hne, if_false, hrooted, decide_False, Bool.false_eq_true]
  have hlen : (String.mk (joinElems es ++ suffix)).length = (joinElems es ++ suffix).length := rfl
  rw [hlen]
  change (if (cleanRel (joinElems es ++ suffix) []).length = 0 then "."
    else String.mk (cleanRel (joinElems es ++ suffix) [])) = _
  rw [hrel, hct]
  simp

theorem Clean_valid (name : String) (h : ValidElems name.data) : Clean name = name := by
  obtain ⟨es, hes, hall, hname⟩ := h
  have := Clean_of_elems es hes hall [] (Or.inl rfl)
  rw [List.append_nil, ← hname] at this
  exact this

theorem Join_valid (d p : String) (hd : ValidPath d = true) (hd1 : d ≠ ".")
    (hp : ValidPath p = true) :
    Join [d, p] = if p = "." then d else String.mk (d.data ++ '/' :: p.data) := by
  have hde : ValidElems d.data := by
    rcases (ValidPath_iff d).mp hd with h | h
    · exact absurd h hd1
    · exact h
  obtain ⟨ds, hds, hdall, hdname⟩ := hde
  obtain ⟨c, t, hct, _⟩ := joinElems_head ds hds hdall
  have hdlen : d.length ≠ 0 := by
    simp [String.length, hdname, hct]
  have hdne : d ≠ "" := by
    intro h; rw [h] at hdlen; exact hdlen rfl
  have hbuf : joinBuf [] [d, p] = d.data ++ '/' :: p.data := by
    simp [joinBuf, hdne, hdname, hct]
  unfold Join
  have hsum : ¬ ((List.map String.length [d, p]).sum = 0) := by
    simp only [List.map_cons, List.map_nil, List.sum_cons, List.sum_nil]
    omega
  simp only [hsum, if_false, hbuf]
  by_cases hpd : p = "."
  · subst hpd
    simp only [if_true]
    have := Clean_of_elems ds hds hdall ['/', '.'] (Or.inr rfl)
    rw [← hdname] at this
    exact this
  · simp only [hpd, if_false]
    have hpe : ValidElems p.data := by
      rcases (ValidPath_iff p).mp hp with h | h
      · exact absurd h hpd
      · exact h
    obtain ⟨ps, hps, hpall, hpname⟩ := hpe
    apply Clean_valid
    refine ⟨ds ++ ps, by simp [hds], ?_, ?_⟩
    · intro e he
      rcases List.mem_append.mp he with he | he
      · exact hdall e he
      · exact hpall e he
    · rw [joinElems_append ds ps hds hps, ← hdname, ← hpname]

/-! ## Lemmas on views -/

theorem get?_append_cons {α : Type} (l1 : List α) (a : α) (l2 : List α) :
    (l1 ++ a :: l2).get? l1.length = some a := by
  induction l1 with
  | nil => rfl
  | cons x l1 ih => simpa using ih

theorem drop_append_cons {α : Type} (l1 : List α) (a : α) (l2 : List α) :
    (l1 ++ a :: l2).drop (l1.length + 1) = l2 := by
  rw [← List.drop_drop]
  simp

theorem shorten_Join (d p : String) (hd : ValidPath d = true) (hd1 : d ≠ ".")
    (hp : ValidPath p = true) : subFS.shorten d (Join [d, p]) = (p, true) := by
  rw [Join_valid d p hd hd1 hp]
  by_cases hpd : p = "."
  · simp [hpd, subFS.shorten]
  · have hpe : ValidElems p.data := by
      rcases (ValidPath_iff p).mp hp with h | h
      · exact absurd h hpd
      · exact h
    obtain ⟨ps, hps, hpall, hpname⟩ := hpe
    obtain ⟨c, t, hct, _⟩ := joinElems_head ps hps hpall
    have hpdata : p.data = c :: t := by rw [hpname, hct]
    have hne : String.mk (d.data ++ '/' :: p.data) ≠ d := by
      intro h
      have := congrArg (fun x => x.data.length) h
      simp at this
    have hget : (d.data ++ '/' :: p.data).get? d.length = some '/' :=
      get?_append_cons d.data '/' p.data
    have htake : (d.data ++ '/' :: p.data).take d.length = d.data :=
      List.take_left _ _
    have hdrop : (d.data ++ '/' :: p.data).drop (d.length + 1) = p.data :=
      drop_append_cons d.data '/' p.data
    have hlen : (String.mk (d.data ++ '/' :: p.data)).length ≥ d.length + 2 := by
      change (d.data ++ '/' :: p.data).length ≥ d.data.length + 2
      simp [hpdata]
    simp only [hpd, if_false, subFS.shorten, hne, hget, htake, hdrop, hlen, true_and, if_true]

theorem fixErr_Join (d p : String) (hd : ValidPath d = true) (hd1 : d ≠ ".")
    (hp : ValidPath p = true) (op : String) (cause : Option Error) :
    subFS.fixErr d (.PathError op (Join [d, p]) cause) = .PathError op p cause := by
  simp [subFS.fixErr, shorten_Join d p hd hd1 hp]

theorem fullName_valid (d op name : String) (h : ValidPath name = true) :
    subFS.fullName d op name = .ok (Join [d, name]) := by
  simp [subFS.fullName, h]

theorem ReadLink_eq_method {σ : Type} (fsys : FS σ) (name : String) (w : World σ) :
    ReadLink fsys name w =
      match fsys.readLinkMethod with
      | none => (.error (ReadLink.unsupported fsys.typeName name), w)
      | some m => ReadLink.validate name (m name w) := by
  cases fsys with
  | host h =>
    cases hrl : h.ReadLink <;> simp [ReadLink, FS.readLinkMethod, FS.typeName, hrl]
  | view fsys dir => rfl

theorem readLinkMethod_eq_none {σ : Type} (fsys : FS σ) :
    fsys.readLinkMethod = none ↔ fsys.implementsReadLinkFS = false := by
  cases fsys with
  | host h => cases hrl : h.ReadLink <;> simp [FS.readLinkMethod, FS.implementsReadLinkFS, hrl]
  | view fsys dir => simp [FS.readLinkMethod, FS.implementsReadLinkFS]

theorem validate_ok {σ : Type} (name t : String) (w : World σ) :
    ReadLink.validate name (.ok t, w) =
      if validLinkTarget t = true then (.ok t, w)
      else (.error (ReadLink.malformed name t), w) := by
  unfold ReadLink.validate validLinkTarget ReadLink.malformed
  by_cases h1 : t = ".."
  · simp [h1]
  · by_cases h2 : HasPrefix t "../" = true
    · simp [h1, h2]
    · by_cases h3 : ValidPath t = true
      · simp [h1, h2, h3]
      · simp [h1, h2, h3]

theorem view_ne_self {σ : Type} (fsys : FS σ) (d : String) : FS.view fsys d ≠ fsys := by
  intro h
  have := congrArg sizeOf h
  simp at this
  omega

/-! ## The claims -/

/-- C1. For a host file system `h` without a native `Sub`, a valid directory `d` other than `.`
and a valid path `p`, `Sub(h, d)` is a view `v` such that `v.Open(p)`, `v.ReadDir(p)` and
`v.ReadFile(p)` return the value the host operation returns for `path.Join(d, p)`, with the same
effect on the host; and when the host operation fails with a path error whose path is
`path.Join(d, p)`, the view fails with the same operation and cause and with the path `p`. -/
theorem view_refines_host {σ : Type} (h : HostFS σ (FS σ)) (hsub : h.Sub = none)
    (d p : String) (hd : ValidPath d = true) (hd1 : d ≠ ".") (hp : ValidPath p = true)
    (w0 w : World σ) :
    ∃ v : FS σ, Sub (.host h) d w0 = (.ok v, w0) ∧
      (∀ file w1, FS.Open (.host h) (Join [d, p]) w = (.ok file, w1) →
        FS.Open v p w = (.ok file, w1)) ∧
      (∀ op cause w1,
        FS.Open (.host h) (Join [d, p]) w = (.error (.PathError op (Join [d, p]) cause), w1) →
        FS.Open v p w = (.error (.PathError op p cause), w1)) ∧
      (∀ list w1, fsReadDir (.host h) (Join [d, p]) w = ((list, none), w1) →
        fsReadDir v p w = ((list, none), w1)) ∧
      (∀ list op cause w1,
        fsReadDir (.host h) (Join [d, p]) w =
          ((list, some (.PathError op (Join [d, p]) cause)), w1) →
        fsReadDir v p w = ((list, some (.PathError op p cause)), w1)) ∧
      (∀ data w1, fsReadFile (.host h) (Join [d, p]) w = ((data, none), w1) →
        fsReadFile v p w = ((data, none), w1)) ∧
      (∀ data op cause w1,
        fsReadFile (.host h) (Join [d, p]) w =
          ((data, some (.PathError op (Join [d, p]) cause)), w1) →
        fsReadFile v p w = ((data, some (.PathError op p cause)), w1)) := by
  refine ⟨.view (.host h) d, ?_, ?_, ?_, ?_, ?_, ?_, ?_⟩
  · simp [Sub, hd, hd1, hsub]
  · intro file w1 hhost
    simp only [FS.Open, subFS.Open, fullName_valid d "open" p hp] at hhost ⊢
    rw [hhost]
  · intro op cause w1 hhost
    simp only [FS.Open, subFS.Open, fullName_valid d "open" p hp] at hhost ⊢
    rw [hhost]
    simp only [fixErr_Join d p hd hd1 hp]
  · intro list w1 hhost
    simp only [fsReadDir, subFS.ReadDir, fullName_valid d "read" p hp] at hhost ⊢
    rw [hhost]
    rfl
  · intro list op cause w1 hhost
    simp only [fsReadDir, subFS.ReadDir, fullName_valid d "read" p hp] at hhost ⊢
    rw [hhost]
    simp only [Option.map_some', fixErr_Join d p hd hd1 hp]
  · intro data w1 hhost
    simp only [fsReadFile, subFS.ReadFile, fullName_valid d "read" p hp] at hhost ⊢
    rw [hhost]
    rfl
  · intro data op cause w1 hhost
    simp only [fsReadFile, subFS.ReadFile, fullName_valid d "read" p hp] at hhost ⊢
    rw [hhost]
    simp only [Option.map_some', fixErr_Join d p hd hd1 hp]

/-- C1, at the host of `TestLstat` with `d = "a"` and `p = "b"`: the host reports `open a/b`,
the view reports `open b`. -/
theorem view_refines_host_witness :
    ∃ v : FS Nat, Sub (.host testFS) "a" ⟨0, []⟩ = (.ok v, ⟨0, []⟩) ∧
      FS.Open v "b" ⟨0, []⟩ =
        (.error (.PathError "open" "b" (some .ErrNotExist)), ⟨0, [Call.Open "a/b"]⟩) := by
  obtain ⟨v, hv, _, hopen, _⟩ := view_refines_host testFS rfl "a" "b" (by decide) (by decide)
    (by decide) ⟨0, []⟩ ⟨0, []⟩
  exact ⟨v, hv, hopen "open" (some .ErrNotExist) ⟨0, [Call.Open "a/b"]⟩ (by rfl)⟩

/-- C2. For a file system that implements `ReadLinkFS`, with method `m`, and a name for which
`m` returns the text `t` without error, `ReadLink` returns exactly `t` if `t` is `..`, begins
with `../` or satisfies `fs.ValidPath`, and otherwise fails with a `readlink` path error for
the name that wraps `fs.ErrInvalid`; it accepts `..`, `../x` and `a/b`, and rejects `/abs`,
`a//b`, `./a` and the empty text. -/
theorem ReadLink_validates {σ : Type} (fsys : FS σ)
    (m : String → World σ → Except Error String × World σ)
    (hcap : fsys.readLinkMethod = some m) (name t : String) (w w1 : World σ)
    (hret : m name w = (.ok t, w1)) :
    ReadLink fsys name w =
        (if t = ".." ∨ HasPrefix t "../" = true ∨ ValidPath t = true then (.ok t, w1)
         else (.error (.PathError "readlink" name
           (some (.Errorf "malformed link target: %q (%w)" [t] .ErrInvalid))), w1)) ∧
      (t ∈ ["..", "../x", "a/b"] → ReadLink fsys name w = (.ok t, w1)) ∧
      (t ∈ ["/abs", "a//b", "./a", ""] →
        ReadLink fsys name w = (.error (.PathError "readlink" name
          (some (.Errorf "malformed link target: %q (%w)" [t] .ErrInvalid))), w1)) := by
  have hrl : ReadLink fsys name w =
      if validLinkTarget t = true then (.ok t, w1)
      else (.error (ReadLink.malformed name t), w1) := by
    rw [ReadLink_eq_method, hcap]
    simp only [hret, validate_ok]
  refine ⟨?_, ?_, ?_⟩
  · rw [hrl]
    by_cases h : validLinkTarget t = true
    · have h2 : t = ".." ∨ HasPrefix t "../" = true ∨ ValidPath t = true := by
        simpa [validLinkTarget, or_assoc] using h
      rw [if_pos h, if_pos h2]
    · have h2 : ¬ (t = ".." ∨ HasPrefix t "../" = true ∨ ValidPath t = true) := by
        simpa [validLinkTarget, or_assoc] using h
      rw [if_neg h, if_neg h2]
      rfl
  · intro ht
    have h : validLinkTarget t = true := by
      simp only [List.mem_cons, List.mem_singleton, List.not_mem_nil, or_false] at ht
      rcases ht with ht | ht | ht <;> subst ht <;> decide
    rw [hrl, if_pos h]
  · intro ht
    have h : ¬ validLinkTarget t = true := by
      simp only [List.mem_cons, List.mem_singleton, List.not_mem_nil, or_false] at ht
      rcases ht with ht | ht | ht | ht <;> subst ht <;> decide
    rw [hrl, if_neg h]
    rfl

/-- C2, at a host whose links all read `../x`. -/
theorem ReadLink_validates_witness :
    ReadLink (.host (linkFS "../x")) "link" ⟨0, []⟩ = (.ok "../x", ⟨1, [Call.ReadLink "link"]⟩) :=
  (ReadLink_validates (.host (linkFS "../x")) _ rfl "link" "../x" ⟨0, []⟩
    ⟨1, [Call.ReadLink "link"]⟩ rfl).2.1 (by decide)

/-- C3. For a file system that does not implement `ReadLinkFS` and every name, valid or not,
`ReadLink` fails (returning no text) with a `readlink` path error for the name whose cause names
the concrete type of the file system, and it makes no call to the host: state and log are as
before. -/
theorem ReadLink_unsupported {σ : Type} (fsys : FS σ)
    (hcap : fsys.implementsReadLinkFS = false) (name : String) (w : World σ) :
    ReadLink fsys name w =
      (.error (.PathError "readlink" name
        (some (.Errorf
          "symlink found in file system which does not implement fs.ReadLinkFS: %T (%w)"
          [fsys.typeName] .ErrInvalid))), w) := by
  rw [ReadLink_eq_method, (readLinkMethod_eq_none fsys).mpr hcap]
  rfl

/-- C3, at the host of `TestLstat` with a name that is not a valid path. -/
theorem ReadLink_unsupported_witness :
    ReadLink (.host testFS) "/not//valid" ⟨7, [Call.Open "."]⟩ =
      (.error (.PathError "readlink" "/not//valid"
        (some (.Errorf
          "symlink found in file system which does not implement fs.ReadLinkFS: %T (%w)"
          ["example.plainFS"] .ErrInvalid))), ⟨7, [Call.Open "."]⟩) :=
  ReadLink_unsupported (.host testFS) rfl "/not//valid" ⟨7, [Call.Open "."]⟩

/-- C8. `Lstat(fsys, ".")` returns exactly what `fs.Stat(fsys, ".")` returns, whatever the
fuel; on a host file system this is the host's stat of `.`, and the only call made is that
stat: no directory is opened or enumerated. -/
theorem Lstat_dot {σ : Type} (fuel : Nat) (w : World σ) :
    (∀ fsys : FS σ, Lstat fuel fsys "." w = some (fsStat fsys "." w)) ∧
      (∀ h : HostFS σ (FS σ), Lstat fuel (.host h) "." w =
        some ((h.Stat "." w.state).1, ⟨(h.Stat "." w.state).2, w.log ++ [Call.Stat "."]⟩)) := by
  have hv : ValidPath "." = true := by decide
  refine ⟨?_, ?_⟩
  · intro fsys
    simp [Lstat, hv]
  · intro h
    simp [Lstat, hv, fsStat, World.call]

/-- C9. `Sub(fsys, ".")` succeeds and returns `fsys` itself, for a host file system with or
without a native `Sub` and for a view alike; no call is made to the host, so the result is not
that of the native `Sub`, and it is not a view of `fsys`. -/
theorem Sub_dot {σ : Type} (fsys : FS σ) (w : World σ) :
    Sub fsys "." w = (.ok fsys, w) ∧ ∀ d : String, FS.view fsys d ≠ fsys := by
  have hv : ValidPath "." = true := by decide
  exact ⟨by simp [Sub, hv], view_ne_self fsys⟩

/-- C10, at a failing input: for a host file system that implements `fs.SubFS`, `Sub` hands back
what the native `Sub` returns, here a file system that is not a `ReadLinkFS`. -/
theorem Sub_native_not_ReadLinkFS :
    ∃ r : FS Nat, Sub (.host nativeSubFS) "a" ⟨0, []⟩ = (.ok r, ⟨0, [Call.Sub "a"]⟩) ∧
      r.implementsReadLinkFS = false ∧ ValidPath "a" = true :=
  ⟨.host (plainFS (listDir []) []), by rfl, by rfl, by decide⟩

/-! ## Lemmas on the directory scan -/

theorem find?_no_match (l : List DirEntry) (name : String) (h : ∀ x ∈ l, x.Name ≠ name) :
    l.find? (fun entry => entry.Name = name) = none := by
  rw [List.find?_eq_none]
  intro x hx
  simpa using h x hx

theorem find?_first_match (l1 l2 : List DirEntry) (e : DirEntry) (name : String)
    (h : ∀ x ∈ l1, x.Name ≠ name) (he : e.Name = name) :
    (l1 ++ e :: l2).find? (fun entry => entry.Name = name) = some e := by
  induction l1 with
  | nil => simp [List.find?_cons, he]
  | cons a l1 ih =>
    have ha : a.Name ≠ name := h a (List.mem_cons_self _ _)
    simp only [List.cons_append, List.find?_cons, ha, decide_False]
    exact ih (fun x hx => h x (List.mem_cons_of_mem _ hx))

theorem Serves_append {σ : Type} (d : Int → σ → (List DirEntry × Option Error) × σ)
    (bs cs : List (List DirEntry × Option Error)) (s s2 : σ) :
    Serves d s (bs ++ cs) s2 ↔ ∃ s1, Serves d s bs s1 ∧ Serves d s1 cs s2 := by
  induction bs generalizing s with
  | nil => simp [Serves]
  | cons b bs ih =>
    have hcons : ∀ (l : List (List DirEntry × Option Error)) (t : σ),
        Serves d s (b :: l) t ↔ (d 100 s).1 = b ∧ Serves d (d 100 s).2 l t :=
      fun _ _ => Iff.rfl
    rw [List.cons_append, hcons, ih]
    constructor
    · rintro ⟨hb, s1, h1, h2⟩
      exact ⟨s1, (hcons _ _).mpr ⟨hb, h1⟩, h2⟩
    · rintro ⟨s1, h1, h2⟩
      exact ⟨((hcons _ _).mp h1).1, s1, ((hcons _ _).mp h1).2, h2⟩

theorem scan_skip {σ : Type} (d : Int → σ → (List DirEntry × Option Error) × σ)
    (name : String) (pre : List (List DirEntry × Option Error))
    (hpre : ∀ b ∈ pre, b.2 = none ∧ ∀ x ∈ b.1, x.Name ≠ name) (w : World σ) (s1 : σ)
    (hs : Serves d w.state pre s1) (fuel : Nat) :
    Lstat.scan d name (pre.length + fuel) w =
      Lstat.scan d name fuel ⟨s1, w.log ++ List.replicate pre.length (.FileReadDir 100)⟩ := by
  induction pre generalizing w with
  | nil =>
    simp only [Serves] at hs
    subst hs
    simp
  | cons b pre ih =>
    obtain ⟨hb, hrest⟩ := hs
    obtain ⟨hberr, hbno⟩ := hpre b (List.mem_cons_self _ _)
    have hfuel : (b :: pre).length + fuel = (pre.length + fuel) + 1 := by
      simp only [List.length_cons]; omega
    rw [hfuel, Lstat.scan]
    simp only [World.call, hb, hberr, find?_no_match _ _ hbno]
    rw [ih (fun c hc => hpre c (List.mem_cons_of_mem _ hc)) _ hrest]
    simp [List.replicate_succ]

theorem scan_match {σ : Type} (d : Int → σ → (List DirEntry × Option Error) × σ)
    (name : String) (l1 l2 : List DirEntry) (e : DirEntry) (err : Option Error)
    (w : World σ) (hb : (d 100 w.state).1 = (l1 ++ e :: l2, err))
    (hl1 : ∀ x ∈ l1, x.Name ≠ name) (he : e.Name = name) (fuel : Nat) :
    Lstat.scan d name (fuel + 1) w =
      some (e.Info, ⟨(d 100 w.state).2, w.log ++ [.FileReadDir 100]⟩) := by
  rw [Lstat.scan]
  simp only [World.call, hb, find?_first_match l1 l2 e name hl1 he]

theorem scan_error {σ : Type} (d : Int → σ → (List DirEntry × Option Error) × σ)
    (name : String) (es : List DirEntry) (err : Error)
    (w : World σ) (hb : (d 100 w.state).1 = (es, some err))
    (hes : ∀ x ∈ es, x.Name ≠ name) (fuel : Nat) :
    Lstat.scan d name (fuel + 1) w =
      some (.error (.PathError "lstat" name
          (if err.isEOF then some .ErrNotExist else Unwrap err)),
        ⟨(d 100 w.state).2, w.log ++ [.FileReadDir 100]⟩) := by
  rw [Lstat.scan]
  simp only [World.call, hb, find?_no_match _ _ hes]
  cases err.isEOF <;> simp

theorem Lstat_open {σ : Type} (fuel : Nat) (fsys : FS σ) (name : String) (w w1 : World σ)
    (f : File σ) (d : Int → σ → (List DirEntry × Option Error) × σ)
    (hvalid : ValidPath name = true) (hdot : name ≠ ".")
    (hopen : FS.Open fsys (Dir name) w = (.ok f, w1)) (hdir : f.ReadDir = some d) :
    Lstat fuel fsys name w =
      (Lstat.scan d (Base name) fuel w1).map
        (fun r => (r.1, ⟨(f.Close r.2.state).2, r.2.log ++ [.FileClose]⟩)) := by
  simp only [Lstat, hvalid, hdot, hopen, Lstat.body, hdir, World.call]
  simp

/-- The scan over batches without a match or an error, followed by a last batch. -/
theorem scan_serves {σ : Type} (d : Int → σ → (List DirEntry × Option Error) × σ)
    (name : String) (pre : List (List DirEntry × Option Error))
    (last : List DirEntry × Option Error)
    (hpre : ∀ b ∈ pre, b.2 = none ∧ ∀ x ∈ b.1, x.Name ≠ name) (w : World σ) (s2 : σ)
    (hs : Serves d w.state (pre ++ [last]) s2) (fuel : Nat) (hfuel : pre.length + 1 ≤ fuel) :
    ∃ s1, (d 100 s1).1 = last ∧ (d 100 s1).2 = s2 ∧
      Lstat.scan d name fuel w = Lstat.scan d name (fuel - pre.length - 1 + 1)
        ⟨s1, w.log ++ List.replicate pre.length (.FileReadDir 100)⟩ := by
  obtain ⟨s1, h1, h2⟩ := (Serves_append d pre [last] w.state s2).mp hs
  simp only [Serves] at h2
  refine ⟨s1, h2.1, h2.2, ?_⟩
  have hf : fuel = pre.length + (fuel - pre.length - 1 + 1) := by omega
  conv => lhs; rw [hf]
  exact scan_skip d name pre hpre w s1 h1 _

theorem scan_batches {σ : Type} (d : Int → σ → (List DirEntry × Option Error) × σ)
    (name : String) (e : DirEntry) (l2 : List DirEntry) (he : e.Name = name) (s2 : σ)
    (bs : List (List DirEntry)) :
    ∀ (l1 : List DirEntry) (w : World σ), (∀ b ∈ bs, b.length ≤ 100) →
      Serves d w.state (bs.map (fun b => (b, none))) s2 →
      bs.flatten = l1 ++ e :: l2 → (∀ x ∈ l1, x.Name ≠ name) →
      ∃ (m : Nat) (sm : σ), l1.length + 1 ≤ 100 * m ∧ m ≤ bs.length ∧
        ∀ fuel, m ≤ fuel → Lstat.scan d name fuel w =
          some (e.Info, ⟨sm, w.log ++ List.replicate m (.FileReadDir 100)⟩) := by
  induction bs with
  | nil =>
    intro l1 w _ _ hjoin _
    simp at hjoin
  | cons b bs ih =>
    intro l1 w hsize hserve hjoin hl1
    have hb100 : b.length ≤ 100 := hsize b (List.mem_cons_self _ _)
    obtain ⟨hb, hrest⟩ := hserve
    have hb : (d 100 w.state).1 = (b, none) := hb
    rw [List.flatten_cons] at hjoin
    have hskip : ∀ a, l1 = b ++ a → bs.flatten = a ++ e :: l2 →
        ∃ (m : Nat) (sm : σ), l1.length + 1 ≤ 100 * m ∧ m ≤ (b :: bs).length ∧
          ∀ fuel, m ≤ fuel → Lstat.scan d name fuel w =
            some (e.Info, ⟨sm, w.log ++ List.replicate m (.FileReadDir 100)⟩) := by
      intro a hl hj
      have hbno : ∀ x ∈ b, x.Name ≠ name := fun x hx =>
        hl1 x (by rw [hl]; exact List.mem_append_left _ hx)
      have ha : ∀ x ∈ a, x.Name ≠ name := fun x hx =>
        hl1 x (by rw [hl]; exact List.mem_append_right _ hx)
      obtain ⟨m, sm, hm1, hm2, hm3⟩ := ih a
        ⟨(d 100 w.state).2, w.log ++ [.FileReadDir 100]⟩
        (fun c hc => hsize c (List.mem_cons_of_mem _ hc)) hrest hj ha
      refine ⟨m + 1, sm, ?_, ?_, ?_⟩
      · rw [hl, List.length_append]; omega
      · simp only [List.length_cons]; omega
      · intro fuel hfuel
        obtain ⟨k, rfl⟩ : ∃ k, fuel = k + 1 := ⟨fuel - 1, by omega⟩
        rw [Lstat.scan]
        simp only [World.call, hb, find?_no_match _ _ hbno]
        rw [hm3 k (by omega)]
        simp [List.replicate_succ]
    rcases List.append_eq_append_iff.mp hjoin with ⟨a, hl, hj⟩ | ⟨c, hbc, hc⟩
    · exact hskip a hl hj
    · cases c with
      | nil =>
        rw [List.append_nil] at hbc
        exact hskip [] (by rw [hbc, List.append_nil]) (by simpa using hc.symm)
      | cons e2 c =>
        simp only [List.cons_append, List.cons.injEq] at hc
        obtain ⟨hee, _⟩ := hc
        subst hee
        refine ⟨1, (d 100 w.state).2, ?_, by simp, ?_⟩
        · have := congrArg List.length hbc
          simp only [List.length_append, List.length_cons] at this
          omega
        · intro fuel hfuel
          obtain ⟨k, rfl⟩ : ∃ k, fuel = k + 1 := ⟨fuel - 1, by omega⟩
          have hb2 : (d 100 w.state).1 = (l1 ++ e :: c, none) := by rw [hb, hbc]
          rw [scan_match d name l1 c e none w hb2 hl1 he k]
          rfl

/-- C4, as stated, fails: the directory of the host holds an entry named `link` whose `Info`
fails, as `fs.DirEntry` allows for a file removed since the directory was read; the enumeration
yields the entry, its name is the final component of the valid name `link`, and `Lstat` does
not succeed: it returns the error of `Info`. -/
theorem Lstat_entry_info_fails :
    Lstat 1 (.host (plainFS (listDir [infoEntry "file" 384, goneEntry "link"]) [])) "link"
        ⟨0, []⟩ =
        some (.error (.PathError "lstat" "link" (some .ErrNotExist)),
          ⟨2, [Call.Open ".", Call.FileReadDir 100, Call.FileClose]⟩) ∧
      (goneEntry "link").Name = Base "link" ∧ ValidPath "link" = true ∧ "link" ≠ "." :=
  ⟨by rfl, by rfl, by decide, by decide⟩

/-- C4, amended. For a valid name other than `.` whose parent directory opens as a directory
file that serves, after batches without a match and without an error, a batch whose first
entry named `path.Base(name)` is `e`: `Lstat`, given fuel for these batches, returns the result
of `e.Info()` itself.  When `Info` yields the `fs.FileInfo` `fi`, `Lstat` succeeds and returns
`fi` unchanged, the information the entry carries, symbolic-link bit included, and the name
of `fi` is the final component whenever `fi` carries the name of the entry; when `Info` fails,
`Lstat` fails with that error.  The link is not resolved: the only calls made after the open
are the batch requests and the close. -/
theorem Lstat_returns_entry {σ : Type} (fuel : Nat) (fsys : FS σ) (name : String)
    (w w1 : World σ) (f : File σ) (d : Int → σ → (List DirEntry × Option Error) × σ)
    (hvalid : ValidPath name = true) (hdot : name ≠ ".")
    (hopen : FS.Open fsys (Dir name) w = (.ok f, w1)) (hdir : f.ReadDir = some d)
    (pre : List (List DirEntry × Option Error)) (l1 l2 : List DirEntry) (e : DirEntry)
    (err : Option Error) (s2 : σ)
    (hserve : Serves d w1.state (pre ++ [(l1 ++ e :: l2, err)]) s2)
    (hpre : ∀ b ∈ pre, b.2 = none ∧ ∀ x ∈ b.1, x.Name ≠ Base name)
    (hl1 : ∀ x ∈ l1, x.Name ≠ Base name) (he : e.Name = Base name)
    (hfuel : pre.length + 1 ≤ fuel) :
    Lstat fuel fsys name w =
        some (e.Info, ⟨(f.Close s2).2,
          w1.log ++ List.replicate (pre.length + 1) (.FileReadDir 100) ++ [.FileClose]⟩) ∧
      (∀ fi : FileInfo, e.Info = .ok fi →
        Lstat fuel fsys name w =
          some (.ok fi, ⟨(f.Close s2).2,
            w1.log ++ List.replicate (pre.length + 1) (.FileReadDir 100) ++ [.FileClose]⟩) ∧
        (fi.Name = e.Name → fi.Name = Base name)) ∧
      (∀ ierr : Error, e.Info = .error ierr →
        Lstat fuel fsys name w =
          some (.error ierr, ⟨(f.Close s2).2,
            w1.log ++ List.replicate (pre.length + 1) (.FileReadDir 100) ++ [.FileClose]⟩)) := by
  obtain ⟨s1, hb, hs2, hscan⟩ := scan_serves d (Base name) pre _ hpre w1 s2 hserve fuel hfuel
  have hmain : Lstat fuel fsys name w =
      some (e.Info, ⟨(f.Close s2).2,
        w1.log ++ List.replicate (pre.length + 1) (.FileReadDir 100) ++ [.FileClose]⟩) := by
    rw [Lstat_open fuel fsys name w w1 f d hvalid hdot hopen hdir, hscan,
      scan_match d (Base name) l1 l2 e err _ hb hl1 he]
    simp [hs2, List.replicate_succ']
  refine ⟨hmain, ?_, ?_⟩
  · intro fi hinfo
    exact ⟨by rw [hmain, hinfo], fun hn => by rw [hn, he]⟩
  · intro ierr hinfo
    rw [hmain, hinfo]

/-- C4, amended, at `TestLstat`: the entry `link` has mode `0666|fs.ModeSymlink`, and `Lstat`
returns a `fs.FileInfo` with that name and that mode. -/
theorem Lstat_returns_entry_witness :
    Lstat 1 (.host testFS) "link" ⟨0, []⟩ =
      some (.ok { Name := "link", Size := 0, Mode := 438 + ModeSymlink, ModTime := 0,
                  IsDir := false },
        ⟨2, [Call.Open ".", Call.FileReadDir 100, Call.FileClose]⟩) :=
  ((Lstat_returns_entry 1 (.host testFS) "link" ⟨0, []⟩ ⟨0, [Call.Open "."]⟩
    (listDir [infoEntry "file" 384, infoEntry "link" (438 + ModeSymlink)]) _
    (by decide) (by decide) (by rfl) rfl [] [infoEntry "file" 384] []
    (infoEntry "link" (438 + ModeSymlink)) none 2 ⟨by rfl, by rfl⟩
    (by simp) (by simp [infoEntry]; decide) (by rfl) (by decide)).2.1 _ rfl).1

/-- C5. For a valid name other than `.` whose parent directory opens as a directory file
that serves its entries in order in successive batches `bs` of at most 100 entries each, where
the first entry named `path.Base(name)` is `e`, at position `l1.length + 1`, with `fs.FileInfo`
`fi`: `Lstat` asks for `m` batches of 100, with `100 * m` at least the position, goes on past
every batch without a match, and returns `fi`, for every fuel of at least `m`. -/
theorem Lstat_batches {σ : Type} (fsys : FS σ) (name : String)
    (w w1 : World σ) (f : File σ) (d : Int → σ → (List DirEntry × Option Error) × σ)
    (hvalid : ValidPath name = true) (hdot : name ≠ ".")
    (hopen : FS.Open fsys (Dir name) w = (.ok f, w1)) (hdir : f.ReadDir = some d)
    (bs : List (List DirEntry)) (l1 l2 : List DirEntry) (e : DirEntry) (s2 : σ)
    (fi : FileInfo) (hsize : ∀ b ∈ bs, b.length ≤ 100)
    (hserve : Serves d w1.state (bs.map (fun b => (b, none))) s2)
    (hsplit : bs.flatten = l1 ++ e :: l2)
    (hl1 : ∀ x ∈ l1, x.Name ≠ Base name) (he : e.Name = Base name)
    (hinfo : e.Info = .ok fi) :
    ∃ (m : Nat) (sm : σ), l1.length + 1 ≤ 100 * m ∧ m ≤ bs.length ∧
      ∀ fuel, m ≤ fuel → Lstat fuel fsys name w =
        some (.ok fi, ⟨(f.Close sm).2,
          w1.log ++ List.replicate m (.FileReadDir 100) ++ [.FileClose]⟩) := by
  obtain ⟨m, sm, hm1, hm2, hm3⟩ :=
    scan_batches d (Base name) e l2 he s2 bs l1 w1 hsize hserve hsplit hl1
  refine ⟨m, sm, hm1, hm2, ?_⟩
  intro fuel hfuel
  rw [Lstat_open fuel fsys name w w1 f d hvalid hdot hopen hdir, hm3 fuel hfuel]
  simp [hinfo]

set_option maxRecDepth 100000 in
/-- C5, at a directory of 250 entries whose 250th is the target: at least three batches are
requested and the entry is found. -/
theorem Lstat_batches_witness :
    ∃ (m : Nat) (sm : Nat), 3 ≤ m ∧ ∀ fuel, m ≤ fuel →
      Lstat fuel (.host (plainFS (listDir dir250) dir250)) "t" ⟨0, []⟩ =
        some (.ok { Name := "t", Size := 0, Mode := 420, ModTime := 0, IsDir := false },
          ⟨sm, [Call.Open "."] ++ List.replicate m (.FileReadDir 100) ++ [.FileClose]⟩) := by
  obtain ⟨m, sm, hm1, _, hm3⟩ := Lstat_batches (.host (plainFS (listDir dir250) dir250)) "t"
    ⟨0, []⟩ ⟨0, [Call.Open "."]⟩ (listDir dir250) _ (by decide) (by decide) (by rfl) rfl
    [List.replicate 100 (infoEntry "f" 384), List.replicate 100 (infoEntry "f" 384),
      List.replicate 49 (infoEntry "f" 384) ++ [infoEntry "t" 420]]
    (List.replicate 249 (infoEntry "f" 384)) [] (infoEntry "t" 420) 250
    { Name := "t", Size := 0, Mode := 420, ModTime := 0, IsDir := false }
    (by simp) ⟨by rfl, by rfl, by rfl, by rfl⟩ (by rfl)
    (by intro x hx; rw [List.eq_of_mem_replicate hx]; decide) (by rfl) rfl
  refine ⟨m, sm, ?_, hm3⟩
  simp only [List.length_replicate] at hm1
  omega

/-- C6. For a valid name other than `.` whose parent directory opens as a directory file
that serves batches without an error and then a batch together with `io.EOF`, no entry of any
of these batches, the last one included, being named `path.Base(name)`: `Lstat`, given fuel
for these batches, fails with a `lstat` path error whose cause is `fs.ErrNotExist`, and
returns no `fs.FileInfo`. -/
theorem Lstat_not_found {σ : Type} (fuel : Nat) (fsys : FS σ) (name : String)
    (w w1 : World σ) (f : File σ) (d : Int → σ → (List DirEntry × Option Error) × σ)
    (hvalid : ValidPath name = true) (hdot : name ≠ ".")
    (hopen : FS.Open fsys (Dir name) w = (.ok f, w1)) (hdir : f.ReadDir = some d)
    (pre : List (List DirEntry × Option Error)) (es : List DirEntry) (s2 : σ)
    (hserve : Serves d w1.state (pre ++ [(es, some .EOF)]) s2)
    (hpre : ∀ b ∈ pre, b.2 = none ∧ ∀ x ∈ b.1, x.Name ≠ Base name)
    (hes : ∀ x ∈ es, x.Name ≠ Base name) (hfuel : pre.length + 1 ≤ fuel) :
    Lstat fuel fsys name w =
      some (.error (.PathError "lstat" (Base name) (some .ErrNotExist)), ⟨(f.Close s2).2,
        w1.log ++ List.replicate (pre.length + 1) (.FileReadDir 100) ++ [.FileClose]⟩) := by
  obtain ⟨s1, hb, hs2, hscan⟩ := scan_serves d (Base name) pre _ hpre w1 s2 hserve fuel hfuel
  rw [Lstat_open fuel fsys name w w1 f d hvalid hdot hopen hdir, hscan,
    scan_error d (Base name) es .EOF _ hb hes]
  simp [hs2, List.replicate_succ', Error.isEOF]

/-- C6, at `TestLstat` with a name the directory does not hold: the first batch has the two
entries, the second is empty and comes with `io.EOF`. -/
theorem Lstat_not_found_witness :
    Lstat 2 (.host testFS) "nolink" ⟨0, []⟩ =
      some (.error (.PathError "lstat" "nolink" (some .ErrNotExist)),
        ⟨2, [Call.Open ".", Call.FileReadDir 100, Call.FileReadDir 100, Call.FileClose]⟩) :=
  Lstat_not_found 2 (.host testFS) "nolink" ⟨0, []⟩ ⟨0, [Call.Open "."]⟩
    (listDir [infoEntry "file" 384, infoEntry "link" (438 + ModeSymlink)]) _
    (by decide) (by decide) (by rfl) rfl
    [([infoEntry "file" 384, infoEntry "link" (438 + ModeSymlink)], none)] [] 2
    ⟨by rfl, by rfl, by rfl⟩ (by simp [infoEntry]; decide) (by simp) (by decide)

/-- C7, at a failing input: the directory's `ReadDir` fails with `errors.New("boom")`, an
error that wraps nothing, and `Lstat` returns a `lstat` path error whose cause is `nil`. -/
theorem Lstat_enumeration_error_nil_cause :
    Lstat 1 (.host (plainFS (brokenDir (.New "boom")) [])) "x" ⟨0, []⟩ =
      some (.error (.PathError "lstat" "x" none),
        ⟨0, [Call.Open ".", Call.FileReadDir 100, Call.FileClose]⟩) := by
  rfl

/-! ## Lemmas on the rewriting of reported paths -/

theorem data_slash_append (d suf : String) :
    (d ++ "/" ++ suf).data = d.data ++ '/' :: suf.data := by
  simp [String.data_append]

theorem eq_slash_append (d path : String)
    (hlen : path.data.length ≥ d.data.length + 2)
    (hget : path.data.get? d.data.length = some '/')
    (htake : path.data.take d.data.length = d.data) :
    path = d ++ "/" ++ String.mk (path.data.drop (d.data.length + 1)) ∧
      String.mk (path.data.drop (d.data.length + 1)) ≠ "" := by
  have hlt : d.data.length < path.data.length := by omega
  have hsplit := List.take_append_drop d.data.length path.data
  have hdrop : path.data.drop d.data.length =
      '/' :: path.data.drop (d.data.length + 1) := by
    rw [List.drop_eq_getElem_cons hlt]
    congr 1
    have := List.getElem?_eq_getElem hlt
    rw [List.get?_eq_getElem?] at hget
    rw [this] at hget
    exact Option.some.inj hget
  constructor
  · apply String.ext
    rw [data_slash_append]
    rw [htake, hdrop] at hsplit
    exact hsplit.symm
  · apply mk_ne_empty
    intro h0
    have := congrArg List.length h0
    simp only [List.length_drop, List.length_nil] at this
    omega

theorem shorten_Rewritten (d path : String) :
    Rewritten d path
      (if (subFS.shorten d path).2 then (subFS.shorten d path).1 else path) := by
  refine ⟨?_, ?_, ?_⟩
  · intro h
    simp [subFS.shorten, h]
  · intro suf hsuf h
    have hdata : path.data = d.data ++ '/' :: suf.data := by rw [h, data_slash_append]
    have hne : path ≠ d := by
      intro h2
      have := congrArg (fun x => x.data.length) h2
      simp [hdata] at this
    have hsd : suf.data ≠ [] := by
      intro h0
      exact hsuf (String.ext h0)
    obtain ⟨c, t, hct⟩ := List.exists_cons_of_ne_nil hsd
    have hlen : path.length ≥ d.length + 2 := by
      change path.data.length ≥ d.data.length + 2
      simp [hdata, hct]
    have hget : path.data.get? d.length = some '/' := by
      rw [hdata]; exact get?_append_cons d.data '/' suf.data
    have htake : String.mk (path.data.take d.length) = d := by
      rw [hdata]
      exact congrArg String.mk (List.take_left _ _)
    have hdrop : String.mk (path.data.drop (d.length + 1)) = suf := by
      rw [hdata]
      exact congrArg String.mk (drop_append_cons d.data '/' suf.data)
    simp only [subFS.shorten, hne, if_false, hlen, hget, htake, hdrop, true_and, if_true]
  · intro hne hno
    have hfalse : (subFS.shorten d path).2 = false := by
      unfold subFS.shorten
      simp only [hne, if_false]
      split
      · rename_i hc
        obtain ⟨h1, h2, h3⟩ := hc
        have h3d : path.data.take d.data.length = d.data := congrArg String.data h3
        obtain ⟨heq, hnonempty⟩ := eq_slash_append d path h1 h2 h3d
        exact absurd heq (hno _ hnonempty)
      · rfl
    simp [hfalse]

theorem fixErr_PathError (d op path : String) (cause : Option Error) :
    subFS.fixErr d (.PathError op path cause) =
      .PathError op (if (subFS.shorten d path).2 then (subFS.shorten d path).1 else path)
        cause := by
  simp only [subFS.fixErr]
  by_cases h : (subFS.shorten d path).2 = true
  · rw [if_pos h, if_pos h]
  · rw [if_neg h, if_neg h]

/-- C11, as stated, fails: the host reports the path `a/`, which begins with the base
directory `a` followed by a slash, and the view with base directory `a` hands the error on
with the path `a/`, not with the suffix after the slash, which is empty. -/
theorem fixErr_keeps_bare_slash :
    FS.Open (.view (.host (failFS "a/")) "a") "x" ⟨0, []⟩ =
        (.error (.PathError "open" "a/" (some .ErrNotExist)), ⟨0, [Call.Open "a/x"]⟩) ∧
      "a/" = "a" ++ "/" ++ "" ∧ "a/" ≠ "" := by
  refine ⟨by rfl, by decide, by decide⟩

/-- C11, amended. For a view with base directory `d` and a valid name, a path error that the
wrapped file system returns to `Open`, `ReadDir` or `ReadFile` comes back from the view with
the same operation and cause and with its path rewritten: a path equal to `d` becomes `.`, a
path made of `d`, a slash and a non-empty suffix becomes that suffix, and every other path,
`d` followed by a bare slash included, is left unchanged. -/
theorem view_rewrites_error_path {σ : Type} (fsys : FS σ) (d name : String)
    (hname : ValidPath name = true) (w w1 : World σ) (op path : String)
    (cause : Option Error) :
    ∃ path2 : String, Rewritten d path path2 ∧
      (FS.Open fsys (Join [d, name]) w = (.error (.PathError op path cause), w1) →
        FS.Open (.view fsys d) name w = (.error (.PathError op path2 cause), w1)) ∧
      (∀ list, fsReadDir fsys (Join [d, name]) w = ((list, some (.PathError op path cause)), w1) →
        fsReadDir (.view fsys d) name w = ((list, some (.PathError op path2 cause)), w1)) ∧
      (∀ data,
        fsReadFile fsys (Join [d, name]) w = ((data, some (.PathError op path cause)), w1) →
        fsReadFile (.view fsys d) name w = ((data, some (.PathError op path2 cause)), w1)) := by
  refine ⟨_, shorten_Rewritten d path, ?_, ?_, ?_⟩
  · intro hhost
    simp only [FS.Open, subFS.Open, fullName_valid d "open" name hname] at hhost ⊢
    rw [hhost]
    simp only [fixErr_PathError]
  · intro list hhost
    simp only [fsReadDir, subFS.ReadDir, fullName_valid d "read" name hname] at hhost ⊢
    rw [hhost]
    simp only [Option.map_some', fixErr_PathError]
  · intro data hhost
    simp only [fsReadFile, subFS.ReadFile, fullName_valid d "read" name hname] at hhost ⊢
    rw [hhost]
    simp only [Option.map_some', fixErr_PathError]

/-- C11, amended, at a host that reports `a/b` to a view with base directory `a`: the view
reports `b`. -/
theorem view_rewrites_error_path_witness :
    FS.Open (.view (.host (failFS "a/b")) "a") "x" ⟨0, []⟩ =
      (.error (.PathError "open" "b" (some .ErrNotExist)), ⟨0, [Call.Open "a/x"]⟩) := by
  obtain ⟨path2, hrew, hopen, _⟩ := view_rewrites_error_path (.host (failFS "a/b")) "a" "x"
    (by decide) ⟨0, []⟩ ⟨0, [Call.Open "a/x"]⟩ "open" "a/b" (some .ErrNotExist)
  have h2 : path2 = "b" := hrew.2.1 "b" (by decide) (by decide)
  rw [← h2]
  exact hopen (by rfl)

/-! ## Lemmas on `ReadLink` through views -/

theorem validate_validate {σ : Type} (n1 n2 : String) (r : Except Error String × World σ) :
    ReadLink.validate n2 (ReadLink.validate n1 r) = ReadLink.validate n1 r := by
  obtain ⟨r1, w⟩ := r
  cases r1 with
  | error e => rfl
  | ok t =>
    rw [validate_ok]
    by_cases h : validLinkTarget t = true
    · rw [if_pos h, validate_ok, if_pos h]
    · rw [if_neg h]
      rfl

theorem validate_ReadLink {σ : Type} (fsys : FS σ) (n1 n2 : String) (w : World σ) :
    ReadLink.validate n2 (ReadLink fsys n1 w) = ReadLink fsys n1 w := by
  rw [ReadLink_eq_method]
  cases fsys.readLinkMethod with
  | none => rfl
  | some m => exact validate_validate n1 n2 _

theorem ReadLink_view {σ : Type} (fsys : FS σ) (d p : String) (hp : ValidPath p = true)
    (w : World σ) : ReadLink (.view fsys d) p w = ReadLink fsys (Join [d, p]) w := by
  simp only [ReadLink, subFS.ReadLink, fullName_valid d "readlink" p hp]
  exact validate_ReadLink fsys _ _ w

theorem Sub_host_view {σ : Type} (h : HostFS σ (FS σ)) (hsub : h.Sub = none) (d : String)
    (hd : ValidPath d = true) (hd1 : d ≠ ".") (w : World σ) :
    Sub (.host h) d w = (.ok (.view (.host h) d), w) := by
  simp [Sub, hd, hd1, hsub]

theorem Sub_view {σ : Type} (fsys : FS σ) (d0 d : String)
    (hd : ValidPath d = true) (hd1 : d ≠ ".") (w : World σ) :
    Sub (.view fsys d0) d w = (.ok (.view fsys (Join [d0, d])), w) := by
  simp [Sub, subFS.Sub, hd, hd1, fullName_valid d0 "sub" d hd]

/-- C12. For a host file system `h` without a native `Sub`, valid `d1` and `d2` other than `.`
and a valid path `p`: `Sub(h, d1)` is a view `v1`, `Sub(v1, d2)` is a view `v2`, and `ReadLink`
on `v2` with `p` returns what `ReadLink(h, path.Join(path.Join(d1, d2), p))` returns, as
`ReadLink` on `v1` with `p` returns what `ReadLink(h, path.Join(d1, p))` returns: the same text
on success, and the same error, host state and calls otherwise. -/
theorem ReadLink_nested {σ : Type} (h : HostFS σ (FS σ)) (hsub : h.Sub = none)
    (d1 d2 p : String) (hd1 : ValidPath d1 = true) (hd1n : d1 ≠ ".")
    (hd2 : ValidPath d2 = true) (hd2n : d2 ≠ ".") (hp : ValidPath p = true)
    (w0 w : World σ) :
    ∃ v1 v2 : FS σ, Sub (.host h) d1 w0 = (.ok v1, w0) ∧ Sub v1 d2 w0 = (.ok v2, w0) ∧
      ReadLink v2 p w = ReadLink (.host h) (Join [Join [d1, d2], p]) w ∧
      ReadLink v1 p w = ReadLink (.host h) (Join [d1, p]) w :=
  ⟨.view (.host h) d1, .view (.host h) (Join [d1, d2]),
    Sub_host_view h hsub d1 hd1 hd1n w0, Sub_view (.host h) d1 d2 hd2 hd2n w0,
    ReadLink_view (.host h) _ p hp w, ReadLink_view (.host h) d1 p hp w⟩

/-- C12, at a host whose links all read `../x`, with `d1 = "a"`, `d2 = "b"` and `p = "c"`: the
host is asked for `a/b/c`, and the text comes back through the nested view. -/
theorem ReadLink_nested_witness :
    ∃ v1 v2 : FS Nat, Sub (.host (linkFS "../x")) "a" ⟨0, []⟩ = (.ok v1, ⟨0, []⟩) ∧
      Sub v1 "b" ⟨0, []⟩ = (.ok v2, ⟨0, []⟩) ∧
      ReadLink v2 "c" ⟨0, []⟩ = (.ok "../x", ⟨1, [Call.ReadLink "a/b/c"]⟩) := by
  obtain ⟨v1, v2, h1, h2, h3, _⟩ := ReadLink_nested (linkFS "../x") rfl "a" "b" "c"
    (by decide) (by decide) (by decide) (by decide) (by decide) ⟨0, []⟩ ⟨0, []⟩
  refine ⟨v1, v2, h1, h2, ?_⟩
  rw [h3]
  rfl

/-- C13, at failing inputs: through the view of `a`, `ReadLink` with `b` returns path errors
that report `a/b`, the path under the wrapped file system, in all three cases: the wrapped
file system is no `ReadLinkFS`, the link target is malformed, and the wrapped `ReadLink` fails
with an error that reports the path it was given. -/
theorem ReadLink_view_reports_full_path :
    ReadLink (.view (.host testFS) "a") "b" ⟨0, []⟩ =
        (.error (ReadLink.unsupported "example.plainFS" "a/b"), ⟨0, []⟩) ∧
      ReadLink (.view (.host (linkFS "/abs")) "a") "b" ⟨0, []⟩ =
        (.error (ReadLink.malformed "a/b" "/abs"), ⟨1, [Call.ReadLink "a/b"]⟩) ∧
      ReadLink (.view (.host (failFS "x")) "a") "b" ⟨0, []⟩ =
        (.error (.PathError "readlink" "a/b" (some .ErrNotExist)), ⟨0, [Call.ReadLink "a/b"]⟩) ∧
      Join ["a", "b"] = "a/b" := by
  refine ⟨by rfl, by rfl, by rfl, by rfl⟩

/-- C14. For a view `v` with wrapped file system `fsys` and base directory `d`: `v.Sub(".")`
returns `v` itself, and for a valid `subPath` other than `.`, `v.Sub(subPath)` returns the view
with wrapped file system `fsys`, which is not `v`, and base directory `path.Join(d, subPath)`;
`Sub(v, _)` does the same, with no call to the host. -/
theorem subFS_Sub_flattens {σ : Type} (fsys : FS σ) (d subPath : String)
    (hv : ValidPath subPath = true) (hne : subPath ≠ ".") (w : World σ) :
    subFS.Sub fsys d "." = .ok (.view fsys d) ∧
      Sub (.view fsys d) "." w = (.ok (.view fsys d), w) ∧
      subFS.Sub fsys d subPath = .ok (.view fsys (Join [d, subPath])) ∧
      Sub (.view fsys d) subPath w = (.ok (.view fsys (Join [d, subPath])), w) ∧
      fsys ≠ .view fsys d := by
  have hdot : ValidPath "." = true := by decide
  refine ⟨by simp [subFS.Sub], by simp [Sub, hdot], ?_, Sub_view fsys d subPath hv hne w,
    fun h => view_ne_self fsys d h.symm⟩
  simp [subFS.Sub, hne, fullName_valid d "sub" subPath hv]

/-- C14, at the view of `a` over the host of `TestLstat` with `subPath = "b/c"`: the result is
the view of `a/b/c` over the same host. -/
theorem subFS_Sub_flattens_witness :
    Sub (.view (.host testFS) "a") "b/c" ⟨0, []⟩ =
      (.ok (.view (.host testFS) "a/b/c"), ⟨0, []⟩) :=
  (subFS_Sub_flattens (.host testFS) "a" "b/c" (by decide) (by decide) ⟨0, []⟩).2.2.2.1

/-- C15. For a string `s` that `fs.ValidPath` rejects: `Sub(fsys, s)` on any file system, and
`Open`, `ReadDir`, `ReadFile`, `Sub` and `ReadLink` of any view called with `s`, fail with a path
error that carries `s` as its path, the operation tag (`sub`, `open`, `read`, `read`, `sub`,
`readlink`) and the cause `invalid name`; host state and call log are as before, so no
operation of the wrapped or host file system is invoked. -/
theorem invalid_name_rejected {σ : Type} (fsys : FS σ) (d s : String)
    (hs : ValidPath s = false) (w : World σ) :
    Sub fsys s w = (.error (.PathError "sub" s (some (.New "invalid name"))), w) ∧
      FS.Open (.view fsys d) s w =
        (.error (.PathError "open" s (some (.New "invalid name"))), w) ∧
      fsReadDir (.view fsys d) s w =
        (([], some (.PathError "read" s (some (.New "invalid name")))), w) ∧
      fsReadFile (.view fsys d) s w =
        (([], some (.PathError "read" s (some (.New "invalid name")))), w) ∧
      subFS.Sub fsys d s = .error (.PathError "sub" s (some (.New "invalid name"))) ∧
      ReadLink (.view fsys d) s w =
        (.error (.PathError "readlink" s (some (.New "invalid name"))), w) := by
  have hne : s ≠ "." := by
    intro h
    rw [h] at hs
    exact absurd hs (by decide)
  refine ⟨?_, ?_, ?_, ?_, ?_, ?_⟩
  · simp [Sub, hs]
  · simp [FS.Open, subFS.Open, subFS.fullName, hs]
  · simp [fsReadDir, subFS.ReadDir, subFS.fullName, hs]
  · simp [fsReadFile, subFS.ReadFile, subFS.fullName, hs]
  · simp [subFS.Sub, subFS.fullName, hs, hne]
  · simp [ReadLink, subFS.ReadLink, subFS.fullName, hs, ReadLink.validate]

/-- C15, at the rooted name `/etc` on the host of `TestLstat` and its view of `a`. -/
theorem invalid_name_rejected_witness :
    Sub (.host testFS) "/etc" ⟨3, [Call.Open "."]⟩ =
        (.error (.PathError "sub" "/etc" (some (.New "invalid name"))), ⟨3, [Call.Open "."]⟩) ∧
      FS.Open (.view (.host testFS) "a") "/etc" ⟨3, [Call.Open "."]⟩ =
        (.error (.PathError "open" "/etc" (some (.New "invalid name"))),
          ⟨3, [Call.Open "."]⟩) :=
  ⟨(invalid_name_rejected (.host testFS) "a" "/etc" (by decide) ⟨3, [Call.Open "."]⟩).1,
    (invalid_name_rejected (.host testFS) "a" "/etc" (by decide) ⟨3, [Call.Open "."]⟩).2.1⟩

/-- C16, as stated, fails: for the invalid name `/x`, `Lstat` fails with a path error whose
cause is `fs.ErrNotExist`, not `fs.ErrInvalid`. -/
theorem Lstat_invalid_name_is_not_exist :
    Lstat 1 (.host testFS) "/x" ⟨0, []⟩ =
        some (.error (.PathError "lstat" "/x" (some .ErrNotExist)), ⟨0, []⟩) ∧
      Error.ErrNotExist ≠ Error.ErrInvalid ∧ ValidPath "/x" = false :=
  ⟨by rfl, fun h => Error.noConfusion h, by decide⟩

/-- C16, amended. For a name that `fs.ValidPath` rejects, `Lstat` fails, whatever the fuel,
with a `lstat` path error for the name whose cause is `fs.ErrNotExist`, and it does so before
any call to the host: no open, stat or enumeration is logged and the host state is as
before. -/
theorem Lstat_invalid_name {σ : Type} (fuel : Nat) (fsys : FS σ) (name : String)
    (hname : ValidPath name = false) (w : World σ) :
    Lstat fuel fsys name w =
      some (.error (.PathError "lstat" name (some .ErrNotExist)), w) := by
  simp [Lstat, hname]

/-- C16, amended, at the name `a//b` on the host of `TestLstat`. -/
theorem Lstat_invalid_name_witness :
    Lstat 0 (.host testFS) "a//b" ⟨5, []⟩ =
      some (.error (.PathError "lstat" "a//b" (some .ErrNotExist)), ⟨5, []⟩) :=
  Lstat_invalid_name 0 (.host testFS) "a//b" (by decide) ⟨5, []⟩

/-! ## Lemmas on the calls of `Lstat` -/

theorem scan_log {σ : Type} (d : Int → σ → (List DirEntry × Option Error) × σ)
    (name : String) (fuel : Nat) :
    ∀ (w : World σ) (r : Except Error FileInfo) (w2 : World σ),
      Lstat.scan d name fuel w = some (r, w2) →
      ∃ k : Nat, w2.log = w.log ++ List.replicate (k + 1) (.FileReadDir 100) := by
  induction fuel with
  | zero =>
    intro w r w2 h
    simp [Lstat.scan] at h
  | succ fuel ih =>
    intro w r w2 h
    rw [Lstat.scan] at h
    split at h
    · simp only [Option.some.injEq, Prod.mk.injEq] at h
      exact ⟨0, by rw [← h.2]; rfl⟩
    · split at h
      · split at h <;>
        · simp only [Option.some.injEq, Prod.mk.injEq] at h
          exact ⟨0, by rw [← h.2]; rfl⟩
      · obtain ⟨k, hk⟩ := ih _ r w2 h
        refine ⟨k + 1, ?_⟩
        rw [hk]
        simp [World.call, List.replicate_succ]

theorem scan_last {σ : Type} (d : Int → σ → (List DirEntry × Option Error) × σ)
    (name : String) (last : List DirEntry × Option Error) (w : World σ)
    (hb : (d 100 w.state).1 = last)
    (hlast : (∃ x ∈ last.1, x.Name = name) ∨ last.2 ≠ none) (fuel : Nat) :
    ∃ r : Except Error FileInfo, Lstat.scan d name (fuel + 1) w =
      some (r, ⟨(d 100 w.state).2, w.log ++ [.FileReadDir 100]⟩) := by
  rw [Lstat.scan]
  simp only [World.call, hb]
  cases hfind : last.1.find? (fun entry => entry.Name = name) with
  | some e => exact ⟨e.Info, rfl⟩
  | none =>
    cases herr : last.2 with
    | some err =>
      by_cases heof : err.isEOF = true
      · exact ⟨.error (.PathError "lstat" name (some .ErrNotExist)), by simp [heof]⟩
      · exact ⟨.error (.PathError "lstat" name (Unwrap err)), by simp [heof]⟩
    | none =>
      rcases hlast with ⟨x, hx, hname⟩ | hne
      · rw [List.find?_eq_none] at hfind
        have := hfind x hx
        simp [hname] at this
      · exact absurd herr hne

theorem count_close (k : Nat) :
    (List.replicate k (Call.FileReadDir 100) ++ [Call.FileClose]).count .FileClose = 1 := by
  induction k with
  | zero => rfl
  | succ k ih =>
    rw [List.replicate_succ, List.cons_append, List.count_cons_of_ne (by decide), ih]

theorem Lstat_open_nodir {σ : Type} (fuel : Nat) (fsys : FS σ) (name : String)
    (w w1 : World σ) (f : File σ)
    (hvalid : ValidPath name = true) (hdot : name ≠ ".")
    (hopen : FS.Open fsys (Dir name) w = (.ok f, w1)) (hdir : f.ReadDir = none) :
    Lstat fuel fsys name w =
      some (.error (.PathError "lstat" name (some .ErrInvalid)),
        ⟨(f.Close w1.state).2, w1.log ++ [.FileClose]⟩) := by
  simp [Lstat, hvalid, hdot, hopen, Lstat.body, hdir, World.call]

theorem Lstat_open_error {σ : Type} (fuel : Nat) (fsys : FS σ) (name : String)
    (w w1 : World σ) (err : Error)
    (hvalid : ValidPath name = true) (hdot : name ≠ ".")
    (hopen : FS.Open fsys (Dir name) w = (.error err, w1)) :
    Lstat fuel fsys name w = some (.error err, w1) := by
  simp [Lstat, hvalid, hdot, hopen]

/-- C17. In every call of `Lstat` with a valid name other than `.` whose parent directory
opens as `f`: whenever `Lstat` returns, the calls it made after the open are some batch
requests followed by one `Close`, of `f`, and nothing else; it does return, so closed, when a
batch holds a match or comes with an error (exhaustion included) after batches without either,
and when `f` has no `ReadDir` method.  When the open fails, `Lstat` returns just after it;
when the name is invalid, it makes no call; when the name is `.`, it returns what `fs.Stat`
returns, which on a host file system is one `Stat` call and on a view an open, a `Stat` and a
`Close` of the opened file. -/
theorem Lstat_closes_once {σ : Type} (fuel : Nat) (fsys : FS σ) (name : String)
    (w : World σ) :
    (∀ (f : File σ) (w1 : World σ) (r : Except Error FileInfo) (w2 : World σ),
        ValidPath name = true → name ≠ "." →
        FS.Open fsys (Dir name) w = (.ok f, w1) → Lstat fuel fsys name w = some (r, w2) →
        ∃ (k : Nat) (s : σ),
          w2 = ⟨(f.Close s).2,
            w1.log ++ List.replicate k (.FileReadDir 100) ++ [.FileClose]⟩ ∧
          (List.replicate k (Call.FileReadDir 100) ++ [Call.FileClose]).count .FileClose = 1) ∧
      (∀ (f : File σ) (w1 : World σ) (d : Int → σ → (List DirEntry × Option Error) × σ)
          (pre : List (List DirEntry × Option Error)) (last : List DirEntry × Option Error)
          (s2 : σ),
        ValidPath name = true → name ≠ "." →
        FS.Open fsys (Dir name) w = (.ok f, w1) → f.ReadDir = some d →
        Serves d w1.state (pre ++ [last]) s2 →
        (∀ b ∈ pre, b.2 = none ∧ ∀ x ∈ b.1, x.Name ≠ Base name) →
        ((∃ x ∈ last.1, x.Name = Base name) ∨ last.2 ≠ none) → pre.length + 1 ≤ fuel →
        ∃ r : Except Error FileInfo, Lstat fuel fsys name w =
          some (r, ⟨(f.Close s2).2,
            w1.log ++ List.replicate (pre.length + 1) (.FileReadDir 100) ++ [.FileClose]⟩)) ∧
      (∀ (f : File σ) (w1 : World σ), ValidPath name = true → name ≠ "." →
        FS.Open fsys (Dir name) w = (.ok f, w1) → f.ReadDir = none →
        Lstat fuel fsys name w =
          some (.error (.PathError "lstat" name (some .ErrInvalid)),
            ⟨(f.Close w1.state).2, w1.log ++ [.FileClose]⟩)) ∧
      (∀ (err : Error) (w1 : World σ), ValidPath name = true → name ≠ "." →
        FS.Open fsys (Dir name) w = (.error err, w1) →
        Lstat fuel fsys name w = some (.error err, w1)) ∧
      (ValidPath name = false →
        Lstat fuel fsys name w =
          some (.error (.PathError "lstat" name (some .ErrNotExist)), w)) ∧
      (name = "." →
        Lstat fuel fsys name w = some (fsStat fsys "." w) ∧
        (∀ h : HostFS σ (FS σ), fsys = .host h →
          (fsStat fsys "." w).2.log = w.log ++ [.Stat "."]) ∧
        (∀ (inner : FS σ) (d : String) (file : File σ) (w1 : World σ),
          fsys = .view inner d → FS.Open fsys "." w = (.ok file, w1) →
          (fsStat fsys "." w).2.log = w1.log ++ [.FileStat, .FileClose]) ∧
        (∀ (inner : FS σ) (d : String) (err : Error) (w1 : World σ),
          fsys = .view inner d → FS.Open fsys "." w = (.error err, w1) →
          fsStat fsys "." w = (.error err, w1))) := by
  refine ⟨?_, ?_, ?_, ?_, ?_, ?_⟩
  · intro f w1 r w2 hvalid hdot hopen hret
    cases hdir : f.ReadDir with
    | none =>
      rw [Lstat_open_nodir fuel fsys name w w1 f hvalid hdot hopen hdir] at hret
      simp only [Option.some.injEq, Prod.mk.injEq] at hret
      exact ⟨0, w1.state, by rw [← hret.2]; simp, count_close 0⟩
    | some d =>
      rw [Lstat_open fuel fsys name w w1 f d hvalid hdot hopen hdir] at hret
      cases hscan : Lstat.scan d (Base name) fuel w1 with
      | none => simp [hscan] at hret
      | some p =>
        obtain ⟨r1, w3⟩ := p
        obtain ⟨k, hk⟩ := scan_log d (Base name) fuel w1 r1 w3 hscan
        simp only [hscan, Option.map_some', Option.some.injEq, Prod.mk.injEq] at hret
        exact ⟨k + 1, w3.state, by rw [← hret.2, hk], count_close (k + 1)⟩
  · intro f w1 d pre last s2 hvalid hdot hopen hdir hserve hpre hlast hfuel
    obtain ⟨s1, hb, hs2, hscan⟩ :=
      scan_serves d (Base name) pre last hpre w1 s2 hserve fuel hfuel
    obtain ⟨r, hr⟩ := scan_last d (Base name) last
      ⟨s1, w1.log ++ List.replicate pre.length (.FileReadDir 100)⟩ hb hlast
      (fuel - pre.length - 1)
    refine ⟨r, ?_⟩
    rw [Lstat_open fuel fsys name w w1 f d hvalid hdot hopen hdir, hscan, hr]
    simp [hs2, List.replicate_succ']
  · intro f w1 hvalid hdot hopen hdir
    exact Lstat_open_nodir fuel fsys name w w1 f hvalid hdot hopen hdir
  · intro err w1 hvalid hdot hopen
    exact Lstat_open_error fuel fsys name w w1 err hvalid hdot hopen
  · intro hname
    simp [Lstat, hname]
  · intro hname
    subst hname
    have hv : ValidPath "." = true := by decide
    refine ⟨by simp [Lstat, hv], ?_, ?_, ?_⟩
    · intro h hfs
      subst hfs
      simp [fsStat, World.call]
    · intro inner d file w1 hfs hopen
      subst hfs
      simp [fsStat, hopen, World.call]
    · intro inner d err w1 hfs hopen
      subst hfs
      simp [fsStat, hopen]

/-- C17, at `TestLstat`: after the open, one batch request and one `Close`. -/
theorem Lstat_closes_once_witness :
    ∃ (k : Nat) (s : Nat),
      (⟨2, [Call.Open ".", Call.FileReadDir 100, Call.FileClose]⟩ : World Nat) =
        ⟨((listDir [infoEntry "file" 384, infoEntry "link" (438 + ModeSymlink)]).Close s).2,
          [Call.Open "."] ++ List.replicate k (.FileReadDir 100) ++ [.FileClose]⟩ ∧
      (List.replicate k (Call.FileReadDir 100) ++ [Call.FileClose]).count .FileClose = 1 :=
  (Lstat_closes_once 1 (.host testFS) "link" ⟨0, []⟩).1
    (listDir [infoEntry "file" 384, infoEntry "link" (438 + ModeSymlink)])
    ⟨0, [Call.Open "."]⟩
    (.ok { Name := "link", Size := 0, Mode := 438 + ModeSymlink, ModTime := 0, IsDir := false })
    ⟨2, [Call.Open ".", Call.FileReadDir 100, Call.FileClose]⟩
    (by decide) (by decide) (by rfl) (by rfl)

/-! ## Lemmas on segments -/

theorem segments_ne_nil (l : List Char) : segments l ≠ [] := by
  induction l with
  | nil => simp [segments]
  | cons c t ih =>
    unfold segments
    split
    · simp
    · split <;> simp

theorem segments_noslash (e : List Char) (he : ∀ c ∈ e, c ≠ '/') : segments e = [e] := by
  induction e with
  | nil => rfl
  | cons c t ih =>
    have hc : c ≠ '/' := he c (List.mem_cons_self _ _)
    have ht := ih (fun x hx => he x (List.mem_cons_of_mem _ hx))
    simp [segments, hc, ht]

theorem segments_append_slash (e r : List Char) (he : ∀ c ∈ e, c ≠ '/') :
    segments (e ++ '/' :: r) = e :: segments r := by
  induction e with
  | nil => simp [segments]
  | cons c t ih =>
    have hc : c ≠ '/' := he c (List.mem_cons_self _ _)
    have ht := ih (fun x hx => he x (List.mem_cons_of_mem _ hx))
    simp [segments, hc, ht]

theorem segments_joinElems (es : List (List Char)) (hes : es ≠ [])
    (hall : ∀ e ∈ es, GoodElem e) : segments (joinElems es) = es := by
  induction es with
  | nil => exact absurd rfl hes
  | cons e es ih =>
    have he := (hall e (List.mem_cons_self _ _)).2.2.2
    cases es with
    | nil => simpa [joinElems] using segments_noslash e he
    | cons e2 es =>
      have hne : e2 :: es ≠ [] := by simp
      rw [joinElems_cons e _ hne, segments_append_slash e _ he,
        ih hne (fun x hx => hall x (List.mem_cons_of_mem _ hx))]

theorem valid_no_dot_segment (t : String) (hv : ValidPath t = true) (hdot : t ≠ ".") :
    ¬ hasDotSegment t := by
  rcases (ValidPath_iff t).mp hv with h | ⟨es, hes, hall, hname⟩
  · exact absurd h hdot
  · unfold hasDotSegment
    rw [hname, segments_joinElems es hes hall]
    rintro (h | h)
    · exact (hall _ h).2.1 rfl
    · exact (hall _ h).2.2.1 rfl

theorem valid_not_rooted (t : String) (hv : ValidPath t = true) :
    t ≠ "" ∧ t.data.head? ≠ some '/' := by
  rcases (ValidPath_iff t).mp hv with h | ⟨es, hes, hall, hname⟩
  · subst h
    exact ⟨by decide, by decide⟩
  · obtain ⟨c, r, hcr, hc⟩ := joinElems_head es hes hall
    constructor
    · intro h
      rw [h] at hname
      rw [hcr] at hname
      exact absurd hname (by simp)
    · rw [hname, hcr]
      simpa using hc

theorem HasPrefix_data (t : String) (h : HasPrefix t "../" = true) :
    ∃ r : List Char, t.data = '.' :: '.' :: '/' :: r := by
  unfold HasPrefix at h
  simp only [decide_eq_true_eq] at h
  obtain ⟨_, h2⟩ := h
  have h3 : t.data.take 3 = ['.', '.', '/'] := congrArg String.data h2
  refine ⟨t.data.drop 3, ?_⟩
  have := List.take_append_drop 3 t.data
  rw [h3] at this
  exact this.symm

theorem accepted_not_rooted (t : String) (h : validLinkTarget t = true) :
    t ≠ "" ∧ t.data.head? ≠ some '/' := by
  by_cases h1 : t = ".."
  · subst h1
    exact ⟨by decide, by decide⟩
  · by_cases h2 : HasPrefix t "../" = true
    · obtain ⟨r, hr⟩ := HasPrefix_data t h2
      constructor
      · intro h0
        rw [h0] at hr
        exact absurd hr (by simp)
      · rw [hr]
        simp
    · have h3 : ValidPath t = true := by
        simpa [validLinkTarget, h1, h2] using h
      exact valid_not_rooted t h3

theorem ReadLink_of_method {σ : Type} (fsys : FS σ)
    (m : String → World σ → Except Error String × World σ)
    (hcap : fsys.readLinkMethod = some m) (name t : String) (w w1 : World σ)
    (hret : m name w = (.ok t, w1)) :
    ReadLink fsys name w =
      if validLinkTarget t = true then (.ok t, w1)
      else (.error (ReadLink.malformed name t), w1) := by
  rw [ReadLink_eq_method, hcap]
  simp only [hret, validate_ok]

theorem validLinkTarget_cases (t : String) (h : validLinkTarget t = true) :
    t = ".." ∨ HasPrefix t "../" = true ∨ ValidPath t = true := by
  simpa [validLinkTarget, or_assoc] using h

/-- C18, as stated, fails: the text `../../x` has a `..` segment after its single leading
`../`, and `ReadLink` returns it. -/
theorem ReadLink_accepts_nested_parent :
    ReadLink (.host (linkFS "../../x")) "l" ⟨0, []⟩ =
        (.ok "../../x", ⟨1, [Call.ReadLink "l"]⟩) ∧
      "../../x" = "../" ++ "../x" ∧ hasDotSegment "../x" := by
  refine ⟨by rfl, by decide, ?_⟩
  unfold hasDotSegment
  decide

/-- C18, amended. For a link text `t` returned by the `ReadLink` method: if `t` is absolute,
or is empty, or has a `.` or `..` segment while being neither `.`, nor `..`, nor a text that
begins with `../`, then `ReadLink` rejects `t` as malformed; a text that begins with `../` is
returned whatever follows; consequently every text `ReadLink` returns on success is the
method's text, is non-empty and not absolute, and is free of `.` and `..` segments unless it
is `.`, `..` or begins with `../`. -/
theorem ReadLink_rejects {σ : Type} (fsys : FS σ)
    (m : String → World σ → Except Error String × World σ)
    (hcap : fsys.readLinkMethod = some m) (name t : String) (w w1 : World σ)
    (hret : m name w = (.ok t, w1)) :
    ((t.data.head? = some '/' ∨ t = "" ∨
        (hasDotSegment t ∧ t ≠ "." ∧ t ≠ ".." ∧ HasPrefix t "../" = false)) →
      ReadLink fsys name w = (.error (.PathError "readlink" name
        (some (.Errorf "malformed link target: %q (%w)" [t] .ErrInvalid))), w1)) ∧
      (HasPrefix t "../" = true → ReadLink fsys name w = (.ok t, w1)) ∧
      (∀ (t2 : String) (w2 : World σ), ReadLink fsys name w = (.ok t2, w2) →
        t2 = t ∧ t ≠ "" ∧ t.data.head? ≠ some '/' ∧
          (t = "." ∨ t = ".." ∨ HasPrefix t "../" = true ∨ ¬ hasDotSegment t)) := by
  have hrl := ReadLink_of_method fsys m hcap name t w w1 hret
  refine ⟨?_, ?_, ?_⟩
  · intro hbad
    have hno : ¬ validLinkTarget t = true := by
      intro hacc
      obtain ⟨hne, hroot⟩ := accepted_not_rooted t hacc
      rcases hbad with hb | hb | ⟨hseg, hd1, hd2, hpre⟩
      · exact hroot hb
      · exact hne hb
      · rcases validLinkTarget_cases t hacc with h | h | h
        · exact hd2 h
        · rw [hpre] at h
          exact absurd h (by decide)
        · exact valid_no_dot_segment t h hd1 hseg
    rw [hrl, if_neg hno]
    rfl
  · intro hpre
    have hacc : validLinkTarget t = true := by simp [validLinkTarget, hpre]
    rw [hrl, if_pos hacc]
  · intro t2 w2 hok
    by_cases hacc : validLinkTarget t = true
    · rw [hrl, if_pos hacc] at hok
      simp only [Prod.mk.injEq, Except.ok.injEq] at hok
      obtain ⟨hne, hroot⟩ := accepted_not_rooted t hacc
      refine ⟨hok.1.symm, hne, hroot, ?_⟩
      rcases validLinkTarget_cases t hacc with h | h | h
      · exact Or.inr (Or.inl h)
      · exact Or.inr (Or.inr (Or.inl h))
      · by_cases hd : t = "."
        · exact Or.inl hd
        · exact Or.inr (Or.inr (Or.inr (valid_no_dot_segment t h hd)))
    · rw [hrl, if_neg hacc] at hok
      simp at hok

/-- C18, amended, at a host whose links all read `a/../b`: the text has a `..` segment and
does not begin with `../`, and `ReadLink` rejects it. -/
theorem ReadLink_rejects_witness :
    ReadLink (.host (linkFS "a/../b")) "l" ⟨0, []⟩ =
      (.error (.PathError "readlink" "l"
        (some (.Errorf "malformed link target: %q (%w)" ["a/../b"] .ErrInvalid))),
        ⟨1, [Call.ReadLink "l"]⟩) :=
  (ReadLink_rejects (.host (linkFS "a/../b")) _ rfl "l" "a/../b" ⟨0, []⟩
    ⟨1, [Call.ReadLink "l"]⟩ rfl).1
    (Or.inr (Or.inr ⟨by unfold hasDotSegment; decide, by decide, by decide, by decide⟩))

/-! ## Lemmas on `path.Dir` and `path.Base` -/

theorem LastIndexByteString_absent (l : List Char) (x : Char) (h : ∀ c ∈ l, c ≠ x) :
    LastIndexByteString l x = -1 := by
  induction l with
  | nil => rfl
  | cons c t ih =>
    have hc : c ≠ x := h c (List.mem_cons_self _ _)
    have ht := ih (fun y hy => h y (List.mem_cons_of_mem _ hy))
    simp [LastIndexByteString, ht, hc]

theorem LastIndexByteString_last (a l : List Char) (x : Char) (h : ∀ c ∈ l, c ≠ x) :
    LastIndexByteString (a ++ x :: l) x = a.length := by
  induction a with
  | nil =>
    have := LastIndexByteString_absent l x h
    simp [LastIndexByteString, this]
  | cons c a ih =>
    have hpos : (0 : Int) ≤ (a.length : Int) := Int.natCast_nonneg _
    rw [List.cons_append, LastIndexByteString]
    simp only [ih, hpos, if_true, List.length_cons]
    push_cast
    rfl

/-- A valid path other than `.` is a single good element, or a valid path, a slash and a good
element. -/
theorem ValidElems_split (l : List Char) (h : ValidElems l) :
    GoodElem l ∨ ∃ (init : List (List Char)) (last : List Char), init ≠ [] ∧
      (∀ e ∈ init, GoodElem e) ∧ GoodElem last ∧ l = joinElems init ++ '/' :: last := by
  obtain ⟨es, hes, hall, hname⟩ := h
  rcases List.eq_nil_or_concat es with h0 | ⟨init, last, hsplit⟩
  · exact absurd h0 hes
  · rw [List.concat_eq_append] at hsplit
    subst hsplit
    have hlast : GoodElem last := hall last (by simp)
    by_cases hinit : init = []
    · left
      subst hinit
      rw [hname]
      exact hlast
    · right
      refine ⟨init, last, hinit, fun e he => hall e (by simp [he]), hlast, ?_⟩
      have hl : [last] ≠ [] := by simp
      rw [hname, joinElems_append init [last] hinit hl]
      rfl

theorem Clean_of_elems_slash (es : List (List Char)) (hes : es ≠ [])
    (hall : ∀ e ∈ es, GoodElem e) :
    Clean (String.mk (joinElems es ++ ['/'])) = String.mk (joinElems es) := by
  obtain ⟨c, t, hct, hc⟩ := joinElems_head es hes hall
  have hne : String.mk (joinElems es ++ ['/']) ≠ "" := mk_ne_empty _ (by simp [hct])
  have hrooted : ((joinElems es ++ ['/']).head? = some '/') = False := by
    simp [hct, hc]
  have hrel : cleanRel (joinElems es ++ ['/']) [] = joinElems es := by
    rw [cleanRel_joinElems es hes hall ['/'] [] (Or.inr ⟨[], rfl⟩)]
    simp [cleanRel_slash, cleanRel_nil]
  unfold Clean
  simp only [hne, if_false, hrooted, decide_False, Bool.false_eq_true]
  have hlen : (String.mk (joinElems es ++ ['/'])).length = (joinElems es ++ ['/']).length := rfl
  rw [hlen]
  change (if (cleanRel (joinElems es ++ ['/']) []).length = 0 then "."
    else String.mk (cleanRel (joinElems es ++ ['/']) [])) = _
  rw [hrel, hct]
  simp

theorem Dir_single (name : String) (h : ∀ c ∈ name.data, c ≠ '/') : Dir name = "." := by
  unfold Dir Split
  simp only [LastIndexByteString_absent name.data '/' h]
  rfl

theorem Dir_slash (name : String) (init : List (List Char)) (last : List Char)
    (hinit : init ≠ []) (hall : ∀ e ∈ init, GoodElem e) (hlast : ∀ c ∈ last, c ≠ '/')
    (hname : name.data = joinElems init ++ '/' :: last) :
    Dir name = String.mk (joinElems init) := by
  unfold Dir Split
  simp only [hname, LastIndexByteString_last (joinElems init) last '/' hlast]
  have h1 : ((joinElems init).length + 1 : Int).toNat = (joinElems init).length + 1 := by
    omega
  have htake : (joinElems init ++ '/' :: last).take ((joinElems init).length + 1) =
      joinElems init ++ ['/'] := by
    rw [List.take_append_eq_append_take]
    simp
  rw [h1, htake]
  exact Clean_of_elems_slash init hinit hall

theorem ValidPath_of_elems (es : List (List Char)) (hes : es ≠ [])
    (hall : ∀ e ∈ es, GoodElem e) : ValidPath (String.mk (joinElems es)) = true :=
  (ValidPath_iff _).mpr (Or.inr ⟨es, hes, hall, rfl⟩)

theorem Dir_ValidPath (name : String) (hv : ValidPath name = true) :
    ValidPath (Dir name) = true := by
  rcases (ValidPath_iff name).mp hv with h | h
  · subst h
    decide
  · rcases ValidElems_split name.data h with hg | ⟨init, last, hinit, hall, hlast, hname⟩
    · rw [Dir_single name hg.2.2.2]
      decide
    · rw [Dir_slash name init last hinit hall hlast.2.2.2 hname]
      exact ValidPath_of_elems init hinit hall

theorem stripSlashesRev_id (l : List Char) (h : l.head? ≠ some '/') :
    stripSlashesRev l = l := by
  cases l with
  | nil => rfl
  | cons c r =>
    have hc : c ≠ '/' := by simpa using h
    simp [stripSlashesRev, hc]

theorem reverse_head_of_append (pre last : List Char) (hne : last ≠ [])
    (h : ∀ c ∈ last, c ≠ '/') : (pre ++ last).reverse.head? ≠ some '/' := by
  rw [List.reverse_append]
  cases hr : last.reverse with
  | nil => exact absurd (List.reverse_eq_nil_iff.mp hr) hne
  | cons y ys =>
    have hy : y ∈ last := by
      have : y ∈ last.reverse := by rw [hr]; exact List.mem_cons_self _ _
      exact List.mem_reverse.mp this
    simp only [List.cons_append, List.head?_cons, ne_eq, Option.some.injEq]
    exact h y hy

theorem Base_slash (name : String) (pre last : List Char) (hlast : GoodElem last)
    (hname : name.data = pre ++ '/' :: last) : Base name = String.mk last := by
  have hne : name ≠ "" := by
    intro h
    rw [h] at hname
    exact absurd hname (by simp)
  have hstrip : (stripSlashesRev name.data.reverse).reverse = name.data := by
    rw [stripSlashesRev_id, List.reverse_reverse]
    rw [hname]
    have := reverse_head_of_append (pre ++ ['/']) last hlast.1 hlast.2.2.2
    simpa using this
  unfold Base
  simp only [hne, if_false, hstrip]
  rw [hname, LastIndexByteString_last pre last '/' hlast.2.2.2]
  have h0 : (0 : Int) ≤ (pre.length : Int) := Int.natCast_nonneg _
  have h1 : ((pre.length : Int) + 1).toNat = pre.length + 1 := by omega
  simp only [h0, if_true, h1, drop_append_cons]
  simp [hlast.1]

/-! ## Lemmas on the base directory of views -/

theorem Join_ValidPath (d p : String) (hd : ValidPath d = true) (hd1 : d ≠ ".")
    (hp : ValidPath p = true) : ValidPath (Join [d, p]) = true ∧ Join [d, p] ≠ "." := by
  rw [Join_valid d p hd hd1 hp]
  by_cases hpd : p = "."
  · simp only [hpd, if_true]
    exact ⟨hd, hd1⟩
  · simp only [hpd, if_false]
    have hde : ValidElems d.data := by
      rcases (ValidPath_iff d).mp hd with h | h
      · exact absurd h hd1
      · exact h
    have hpe : ValidElems p.data := by
      rcases (ValidPath_iff p).mp hp with h | h
      · exact absurd h hpd
      · exact h
    obtain ⟨ds, hds, hdall, hdname⟩ := hde
    obtain ⟨ps, hps, hpall, hpname⟩ := hpe
    constructor
    · rw [hdname, hpname, ← joinElems_append ds ps hds hps]
      apply ValidPath_of_elems
      · simp [hds]
      · intro e he
        rcases List.mem_append.mp he with he | he
        · exact hdall e he
        · exact hpall e he
    · intro h
      obtain ⟨c, t, hct, _⟩ := joinElems_head ds hds hdall
      have hdl : d.length ≥ 1 := by
        change d.data.length ≥ 1
        rw [hdname, hct]
        simp
      have := congrArg (fun x => x.data.length) h
      simp at this
      omega

theorem Reachable_invariant {σ : Type} (h : HostFS σ (FS σ)) (hsub : h.Sub = none)
    (v : FS σ) (hreach : Reachable h v) :
    v = .host h ∨ ∃ dir : String, v = .view (.host h) dir ∧ ValidPath dir = true ∧ dir ≠ "." := by
  have hhost : ∀ (d : String) (w w1 : World σ) (v2 : FS σ),
      Sub (.host h) d w = (.ok v2, w1) →
      v2 = .host h ∨
        ∃ dir : String, v2 = .view (.host h) dir ∧ ValidPath dir = true ∧ dir ≠ "." := by
    intro d w w1 v2 hs
    by_cases hd : ValidPath d = true
    · by_cases hd1 : d = "."
      · subst hd1
        simp only [Sub, hd, Bool.not_true, Bool.false_eq_true, if_false, if_true, Prod.mk.injEq,
          Except.ok.injEq] at hs
        exact Or.inl hs.1.symm
      · rw [Sub_host_view h hsub d hd hd1 w] at hs
        simp only [Prod.mk.injEq, Except.ok.injEq] at hs
        exact Or.inr ⟨d, hs.1.symm, hd, hd1⟩
    · simp [Sub, hd] at hs
  have hmethod : ∀ (dir d : String) (v2 : FS σ), ValidPath dir = true → dir ≠ "." →
      subFS.Sub (.host h) dir d = .ok v2 →
      ∃ dir2 : String, v2 = .view (.host h) dir2 ∧ ValidPath dir2 = true ∧ dir2 ≠ "." := by
    intro dir d v2 hdir hdir1 hs
    by_cases hd1 : d = "."
    · subst hd1
      simp only [subFS.Sub, if_true, Except.ok.injEq] at hs
      exact ⟨dir, hs.symm, hdir, hdir1⟩
    · by_cases hd : ValidPath d = true
      · simp only [subFS.Sub, hd1, if_false, fullName_valid dir "sub" d hd,
          Except.ok.injEq] at hs
        obtain ⟨h1, h2⟩ := Join_ValidPath dir d hdir hdir1 hd
        exact ⟨Join [dir, d], hs.symm, h1, h2⟩
      · simp [subFS.Sub, hd1, subFS.fullName, hd] at hs
  induction hreach with
  | sub d w w1 v hs => exact hhost d w w1 v hs
  | step d w w1 v v2 _ hs ih =>
    rcases ih with hv | ⟨dir, hv, hdir, hdir1⟩
    · subst hv
      exact hhost d w w1 v2 hs
    · subst hv
      by_cases hd : ValidPath d = true
      · by_cases hd1 : d = "."
        · subst hd1
          simp only [Sub, hd, Bool.not_true, Bool.false_eq_true, if_false, if_true,
            Prod.mk.injEq, Except.ok.injEq] at hs
          exact Or.inr ⟨dir, hs.1.symm, hdir, hdir1⟩
        · have hs2 : subFS.Sub (.host h) dir d = .ok v2 := by
            simp only [Sub, hd, Bool.not_true, Bool.false_eq_true, if_false, hd1,
              Prod.mk.injEq] at hs
            exact hs.1
          exact Or.inr (hmethod dir d v2 hdir hdir1 hs2)
      · simp [Sub, hd] at hs
  | method fsys dir d v2 _ hs ih =>
    rcases ih with hv | ⟨dir0, hv, hdir, hdir1⟩
    · exact absurd hv (by simp)
    · simp only [FS.view.injEq] at hv
      obtain ⟨hf, hd0⟩ := hv
      subst hf; subst hd0
      exact Or.inr (hmethod dir d v2 hdir hdir1 hs)

theorem Lstat_first_call {σ : Type} (fuel : Nat) (h : HostFS σ (FS σ)) (name : String)
    (hvalid : ValidPath name = true) (hdot : name ≠ ".") (w : World σ)
    (r : Except Error FileInfo) (w2 : World σ)
    (hret : Lstat fuel (.host h) name w = some (r, w2)) :
    ∃ rest : List Call, w2.log = w.log ++ Call.Open (Dir name) :: rest := by
  cases hopen : FS.Open (.host h) (Dir name) w with
  | mk res w1 =>
    have hw1 : w1.log = w.log ++ [Call.Open (Dir name)] := by
      have := congrArg (fun x => x.2.log) hopen
      simpa [FS.Open, World.call] using this.symm
    cases res with
    | error err =>
      rw [Lstat_open_error fuel _ name w w1 err hvalid hdot hopen] at hret
      simp only [Option.some.injEq, Prod.mk.injEq] at hret
      exact ⟨[], by rw [← hret.2, hw1]⟩
    | ok f =>
      cases hdir : f.ReadDir with
      | none =>
        rw [Lstat_open_nodir fuel _ name w w1 f hvalid hdot hopen hdir] at hret
        simp only [Option.some.injEq, Prod.mk.injEq] at hret
        exact ⟨[.FileClose], by rw [← hret.2]; simp [hw1]⟩
      | some d =>
        rw [Lstat_open fuel _ name w w1 f d hvalid hdot hopen hdir] at hret
        cases hscan : Lstat.scan d (Base name) fuel w1 with
        | none => simp [hscan] at hret
        | some p =>
          obtain ⟨r1, w3⟩ := p
          obtain ⟨k, hk⟩ := scan_log d (Base name) fuel w1 r1 w3 hscan
          simp only [hscan, Option.map_some', Option.some.injEq, Prod.mk.injEq] at hret
          exact ⟨List.replicate (k + 1) (.FileReadDir 100) ++ [.FileClose],
            by rw [← hret.2]; simp [hk, hw1]⟩

theorem validate_world {σ : Type} (name : String) (r : Except Error String × World σ) :
    (ReadLink.validate name r).2 = r.2 := by
  obtain ⟨r1, w⟩ := r
  cases r1 with
  | error e => rfl
  | ok t =>
    rw [validate_ok]
    split <;> rfl

theorem view_Open_log {σ : Type} (h : HostFS σ (FS σ)) (dir p : String)
    (hp : ValidPath p = true) (w : World σ) :
    (FS.Open (.view (.host h) dir) p w).2.log = w.log ++ [Call.Open (Join [dir, p])] := by
  simp only [FS.Open, subFS.Open, fullName_valid dir "open" p hp]
  cases hres : (w.call (Call.Open (Join [dir, p])) (h.Open (Join [dir, p]))) with
  | mk res w1 =>
    have hw1 : w1.log = w.log ++ [Call.Open (Join [dir, p])] := by
      have := congrArg (fun x => x.2.log) hres
      simpa [World.call] using this.symm
    cases res <;> simpa using hw1

/-- C19. Every view reachable by `Sub` and `(*subFS).Sub` from a host file system `h` without
a native `Sub` wraps `h` itself and has a base directory that satisfies `fs.ValidPath` and is
not `.`; so for a valid path `p` the path `path.Join(dir, p)` that `Open`, `ReadDir`,
`ReadFile` and `ReadLink` of the view hand to `h` satisfies `fs.ValidPath`, and for a valid name
so does `path.Dir(name)`, the path of the first call `Lstat` makes to the host. -/
theorem views_have_valid_base {σ : Type} (h : HostFS σ (FS σ)) (hsub : h.Sub = none)
    (fsys : FS σ) (dir : String) (hreach : Reachable h (.view fsys dir)) :
    fsys = .host h ∧ ValidPath dir = true ∧ dir ≠ "." ∧
      (∀ p : String, ValidPath p = true →
        ValidPath (Join [dir, p]) = true ∧
        (∀ w : World σ,
          (FS.Open (.view fsys dir) p w).2.log = w.log ++ [Call.Open (Join [dir, p])]) ∧
        (∀ w : World σ,
          (fsReadDir (.view fsys dir) p w).2.log = w.log ++ [Call.ReadDir (Join [dir, p])]) ∧
        (∀ w : World σ,
          (fsReadFile (.view fsys dir) p w).2.log = w.log ++ [Call.ReadFile (Join [dir, p])]) ∧
        (∀ w : World σ, ReadLink (.view fsys dir) p w = ReadLink fsys (Join [dir, p]) w) ∧
        (∀ w : World σ, h.ReadLink.isSome = true →
          (ReadLink (.view fsys dir) p w).2.log = w.log ++ [Call.ReadLink (Join [dir, p])])) ∧
      (∀ name : String, ValidPath name = true →
        ValidPath (Dir name) = true ∧
        (name ≠ "." → ∀ (fuel : Nat) (w : World σ) (r : Except Error FileInfo) (w2 : World σ),
          Lstat fuel (.host h) name w = some (r, w2) →
          ∃ rest : List Call, w2.log = w.log ++ Call.Open (Dir name) :: rest)) := by
  rcases Reachable_invariant h hsub _ hreach with hv | ⟨dir0, hv, hdir, hdir1⟩
  · exact absurd hv (by simp)
  · simp only [FS.view.injEq] at hv
    obtain ⟨hf, hd0⟩ := hv
    subst hf; subst hd0
    refine ⟨rfl, hdir, hdir1, ?_, ?_⟩
    · intro p hp
      refine ⟨(Join_ValidPath dir p hdir hdir1 hp).1, view_Open_log h dir p hp, ?_, ?_,
        fun w => ReadLink_view (.host h) dir p hp w, ?_⟩
      · intro w
        simp [fsReadDir, subFS.ReadDir, fullName_valid dir "read" p hp, World.call]
      · intro w
        simp [fsReadFile, subFS.ReadFile, fullName_valid dir "read" p hp, World.call]
      · intro w hsome
        rw [ReadLink_view (.host h) dir p hp w]
        obtain ⟨f, hf⟩ := Option.isSome_iff_exists.mp hsome
        simp only [ReadLink, hf, validate_world]
        rfl
    · intro name hname
      exact ⟨Dir_ValidPath name hname,
        fun hdot fuel w r w2 hret => Lstat_first_call fuel h name hname hdot w r w2 hret⟩

/-- C19, at the view reached from the host of `TestLstat` by `Sub` with `a` and then with `b`:
its base directory `a/b` is valid, and so is the path `a/b/c` it hands on for `c`. -/
theorem views_have_valid_base_witness :
    ValidPath "a/b" = true ∧ "a/b" ≠ "." ∧ ValidPath (Join ["a/b", "c"]) = true := by
  have hreach : Reachable testFS (.view (.host testFS) "a/b") :=
    Reachable.step "b" ⟨0, []⟩ ⟨0, []⟩ (.view (.host testFS) "a") _
      (Reachable.sub "a" ⟨0, []⟩ ⟨0, []⟩ _ (by rfl)) (by rfl)
  obtain ⟨_, h1, h2, h3, _⟩ := views_have_valid_base testFS rfl (.host testFS) "a/b" hreach
  exact ⟨h1, h2, (h3 "c" (by decide)).1⟩

/-- C20. For a valid name with a slash whose parent directory opens as `f`: the final
component `path.Base(name)` differs from the name; when the scan of `f` ends without a match
in a batch that comes with an error, be it `io.EOF` or another error, the `lstat` path error
`Lstat` returns carries `path.Base(name)` as its path, not the name; when `f` has no `ReadDir`
method, the `lstat` path error carries the name. -/
theorem Lstat_error_path {σ : Type} (fuel : Nat) (fsys : FS σ) (name : String)
    (w w1 : World σ) (f : File σ)
    (hvalid : ValidPath name = true) (hslash : '/' ∈ name.data)
    (hopen : FS.Open fsys (Dir name) w = (.ok f, w1)) :
    (Base name ≠ name ∧ '/' ∉ (Base name).data ∧
        ∃ parent : String, name = parent ++ "/" ++ Base name) ∧
      (∀ (d : Int → σ → (List DirEntry × Option Error) × σ)
          (pre : List (List DirEntry × Option Error)) (es : List DirEntry) (err : Error)
          (s2 : σ),
        f.ReadDir = some d → Serves d w1.state (pre ++ [(es, some err)]) s2 →
        (∀ b ∈ pre, b.2 = none ∧ ∀ x ∈ b.1, x.Name ≠ Base name) →
        (∀ x ∈ es, x.Name ≠ Base name) → pre.length + 1 ≤ fuel →
        Lstat fuel fsys name w =
          some (.error (.PathError "lstat" (Base name)
              (if err.isEOF then some .ErrNotExist else Unwrap err)),
            ⟨(f.Close s2).2,
              w1.log ++ List.replicate (pre.length + 1) (.FileReadDir 100) ++ [.FileClose]⟩)) ∧
      (f.ReadDir = none →
        Lstat fuel fsys name w =
          some (.error (.PathError "lstat" name (some .ErrInvalid)),
            ⟨(f.Close w1.state).2, w1.log ++ [.FileClose]⟩)) := by
  have hdot : name ≠ "." := by
    intro h
    rw [h] at hslash
    exact absurd hslash (by decide)
  refine ⟨?_, ?_, ?_⟩
  · rcases (ValidPath_iff name).mp hvalid with h | h
    · exact absurd h hdot
    · rcases ValidElems_split name.data h with hg | ⟨init, last, _, _, hlast, hname⟩
      · exact absurd rfl (hg.2.2.2 '/' hslash)
      · have hbase := Base_slash name (joinElems init) last hlast hname
        refine ⟨?_, ?_, String.mk (joinElems init), ?_⟩
        · intro heq
          have := congrArg (fun x => x.data.length) heq
          simp [hbase, hname] at this
          omega
        · rw [hbase]
          intro hmem
          exact hlast.2.2.2 '/' hmem rfl
        · apply String.ext
          rw [data_slash_append, hbase, hname]
  · intro d pre es err s2 hdir hserve hpre hes hfuel
    obtain ⟨s1, hb, hs2, hscan⟩ :=
      scan_serves d (Base name) pre _ hpre w1 s2 hserve fuel hfuel
    rw [Lstat_open fuel fsys name w w1 f d hvalid hdot hopen hdir, hscan,
      scan_error d (Base name) es err _ hb hes]
    simp [hs2, List.replicate_succ']
  · intro hdir
    exact Lstat_open_nodir fuel fsys name w w1 f hvalid hdot hopen hdir

/-- C20, at the name `a/b/missing` in a host whose directory `a/b` holds one file: the error
of the exhausted scan carries `missing`. -/
theorem Lstat_error_path_witness :
    Lstat 2 (.host (oneDirFS "a/b" (listDir [infoEntry "file" 384]))) "a/b/missing" ⟨0, []⟩ =
      some (.error (.PathError "lstat" "missing" (some .ErrNotExist)),
        ⟨1, [Call.Open "a/b", Call.FileReadDir 100, Call.FileReadDir 100, Call.FileClose]⟩) :=
  (Lstat_error_path 2 (.host (oneDirFS "a/b" (listDir [infoEntry "file" 384]))) "a/b/missing"
    ⟨0, []⟩ ⟨0, [Call.Open "a/b"]⟩ (listDir [infoEntry "file" 384])
    (by decide) (by decide) (by rfl)).2.1 _ [([infoEntry "file" 384], none)] [] .EOF 1 rfl
    ⟨by rfl, by rfl, by rfl⟩ (by simp [infoEntry]; decide) (by simp) (by decide)

end fslink
